import Mathlib

set_option maxHeartbeats 1000000

/- A shallow embedding of the ctags-lsp language server (Go).  It covers the
path-normalization layer (toRootRelativePath, relativePathToAbsoluteURI,
tagfilePathToRootRelative and the pieces of Go's path/filepath they use),
the tag index and its single-file rescan, the tagfile kind-letter parser, the
JSON-RPC dispatch gate, and the completion/definition query handlers.

Go strings are modelled as Lean strings (lists of chars); the byte-level
operations (strings.Index, len of a string) go through an explicit UTF-8
encoder.  The server runs on unix, so filepath.FromSlash and
filepath.ToSlash are the identity and the path separator is '/'. -/

/- ---------------------------------------------------------------------
Go string helpers (package strings / strconv), modelled over List Char.
--------------------------------------------------------------------- -/

/-- ASCII lower-casing of one character; stands in for the unicode table of
Go strings.ToLower (the inputs of interest are ASCII identifiers). -/
def asciiLower (c : Char) : Char :=
  if 'A' ≤ c ∧ c ≤ 'Z' then Char.ofNat (c.toNat + 32) else c

/-- The Go strings.ToLower, restricted to ASCII letters. -/
def goToLower (s : String) : String :=
  ⟨s.data.map asciiLower⟩

/-- Splitting a character list at every occurrence of a separator, the way Go
strings.Split does: the result always has one more part than there are
separators, and an empty input yields one empty part. -/
def splitChar (sep : Char) : List Char → List (List Char)
  | [] => [[]]
  | c :: rest =>
    if c = sep then [] :: splitChar sep rest
    else
      match splitChar sep rest with
      | s :: ss => (c :: s) :: ss
      | [] => [[c]]

/-- Joining parts with a separator character (Go strings.Join). -/
def joinChar (sep : Char) : List (List Char) → List Char
  | [] => []
  | [x] => x
  | x :: xs => x ++ sep :: joinChar sep xs

/-- Go strings.Split at the String level. -/
def goSplit (s : String) (sep : Char) : List String :=
  (splitChar sep s.data).map (fun l => ⟨l⟩)

/-- Cut a list at the first occurrence of a separator character:
some (before, after) when the separator occurs, none otherwise
(Go strings.Cut with a one-character separator). -/
def cutAtChar (sep : Char) : List Char → Option (List Char × List Char)
  | [] => none
  | c :: rest =>
    if c = sep then some ([], rest)
    else (cutAtChar sep rest).map (fun p => (c :: p.1, p.2))

/-- Go strings.Cut(s, sep) for a one-character separator. -/
def goCut (s : String) (sep : Char) : Option (String × String) :=
  (cutAtChar sep s.data).map (fun p => (⟨p.1⟩, ⟨p.2⟩))

/-- Go strings.Contains(s, sep) for a one-character separator. -/
def goContainsChar (s : String) (sep : Char) : Bool :=
  s.data.contains sep

/-- Go strings.SplitN(s, sep, 2) for a one-character separator. -/
def goSplitN2 (s : String) (sep : Char) : List String :=
  match cutAtChar sep s.data with
  | none => [s]
  | some (a, b) => [⟨a⟩, ⟨b⟩]

/-- Go strings.HasPrefix(s, pre). -/
def goHasPrefixStr (s pre : String) : Bool :=
  List.isPrefixOf pre.data s.data

/-- Go strings.HasSuffix(s, suf). -/
def goHasSuffixStr (s suf : String) : Bool :=
  List.isSuffixOf suf.data s.data

/-- Go strings.CutPrefix(s, pre): some of the remainder when pre is a prefix
of s, none otherwise. -/
def goCutPrefixStr (s pre : String) : Option String :=
  if List.isPrefixOf pre.data s.data then some ⟨s.data.drop pre.data.length⟩
  else none

/-- Go strings.TrimPrefix(s, pre). -/
def goTrimPrefixStr (s pre : String) : String :=
  match goCutPrefixStr s pre with
  | some after => after
  | none => s

/-- Go strings.TrimSuffix(s, suf). -/
def goTrimSuffixStr (s suf : String) : String :=
  if List.isSuffixOf suf.data s.data then ⟨s.data.take (s.data.length - suf.data.length)⟩
  else s

/-- UTF-8 encoding of one character, as a list of byte values. -/
def utf8EncodeChar (c : Char) : List Nat :=
  let n := c.toNat
  if n < 0x80 then [n]
  else if n < 0x800 then
    [0xC0 ||| (n >>> 6), 0x80 ||| (n &&& 0x3F)]
  else if n < 0x10000 then
    [0xE0 ||| (n >>> 12), 0x80 ||| ((n >>> 6) &&& 0x3F), 0x80 ||| (n &&& 0x3F)]
  else
    [0xF0 ||| (n >>> 18), 0x80 ||| ((n >>> 12) &&& 0x3F),
     0x80 ||| ((n >>> 6) &&& 0x3F), 0x80 ||| (n &&& 0x3F)]

/-- The UTF-8 bytes of a string (a Go string value is this byte sequence). -/
def utf8Bytes (s : String) : List Nat :=
  (s.data.map utf8EncodeChar).flatten

/-- Go len(s) for a string: the number of UTF-8 bytes. -/
def goStrLen (s : String) : Nat :=
  (utf8Bytes s).length

/-- Index of the first occurrence of a byte sequence inside another, counting
from a starting offset; -1 when absent. -/
def indexAux (needle : List Nat) : List Nat → Nat → Int
  | [], i => if needle = [] then (i : Int) else -1
  | hay :: t, i =>
    if List.isPrefixOf needle (hay :: t) then (i : Int) else indexAux needle t (i + 1)

/-- Go strings.Index(s, sub): the byte index of the first occurrence of sub
in s, or -1. -/
def stringsIndex (s sub : String) : Int :=
  indexAux (utf8Bytes sub) (utf8Bytes s) 0

/-- Go strconv.Atoi, returning none on malformed input or 64-bit overflow. -/
def goAtoi (s : String) : Option Int :=
  let p : Bool × List Char :=
    match s.data with
    | '-' :: t => (true, t)
    | '+' :: t => (false, t)
    | t => (false, t)
  let neg := p.1
  let l := p.2
  if l = [] then none
  else if l.all (fun c => '0' ≤ c ∧ c ≤ '9') then
    let n : Nat := l.foldl (fun a c => a * 10 + (c.toNat - 48)) 0
    let v : Int := if neg then -(n : Int) else (n : Int)
    if v < -(2 ^ 63) ∨ (2 ^ 63 : Int) ≤ v then none else some v
  else none

/- ---------------------------------------------------------------------
Go path/filepath on unix: Clean, IsAbs, Rel, Join, Dir, Ext.
--------------------------------------------------------------------- -/

/-- Whether a path is rooted (Go filepath.IsAbs on unix). -/
def isAbsList : List Char → Bool
  | '/' :: _ => true
  | _ => false

/-- One step of the Clean element scan (the stack is kept reversed: its head
is the most recently emitted element).  Empty and "." elements are dropped;
".." pops the previous element when possible, is dropped at the root of a
rooted path, and is kept for a relative path. -/
def cleanStep (rooted : Bool) (stack : List (List Char)) (c : List Char) : List (List Char) :=
  if c = [] ∨ c = ['.'] then stack
  else if c = ['.', '.'] then
    match stack with
    | [] => if rooted then [] else [['.', '.']]
    | h :: t => if h = ['.', '.'] then ['.', '.'] :: h :: t else t
  else c :: stack

/-- Folding the Clean element scan over a list of elements. -/
def cleanCore (rooted : Bool) (stack : List (List Char)) (comps : List (List Char)) :
    List (List Char) :=
  comps.foldl (cleanStep rooted) stack

/-- The cleaned elements of a path, in order. -/
def cleanComps (rooted : Bool) (comps : List (List Char)) : List (List Char) :=
  (cleanCore rooted [] comps).reverse

/-- Go filepath.Clean on unix, over a character list. -/
def cleanList (l : List Char) : List Char :=
  let rooted := isAbsList l
  let comps := cleanComps rooted (splitChar '/' l)
  if rooted then '/' :: joinChar '/' comps
  else if comps = [] then ['.']
  else joinChar '/' comps

/-- Go filepath.Clean on unix. -/
def filepathClean (s : String) : String :=
  ⟨cleanList s.data⟩

/-- Go filepath.IsAbs on unix. -/
def filepathIsAbs (s : String) : Bool :=
  isAbsList s.data

/-- Dropping the longest common prefix of two lists. -/
def dropCommon [DecidableEq α] : List α → List α → List α
  | a :: as, b :: bs => if a = b then dropCommon as bs else a :: as
  | as, _ => as

/-- Go filepath.Rel(basepath, targpath) on unix, over character lists; none
models the error return.  Both paths are cleaned, then compared element by
element; the result climbs with ".." for every remaining base element.  Go's
scan tracks character positions, so a single remaining empty element (which
happens exactly for the cleaned path "/") counts as an exhausted side. -/
def relList (basepath targpath : List Char) : Option (List Char) :=
  let b0 := cleanList basepath
  let t := cleanList targpath
  if b0 = t then some ['.']
  else
    let b := if b0 = ['.'] then [] else b0
    if (isAbsList b ≠ isAbsList t) then none
    else
      let bc := if b = [] then ([] : List (List Char)) else splitChar '/' b
      let tc := splitChar '/' t
      let br := dropCommon bc tc
      let tr := dropCommon tc bc
      if br.headI = ['.', '.'] then none
      else
        let brr := if br = [[]] then [] else br
        let trr := if tr = [[]] then [] else tr
        some (joinChar '/' (List.replicate brr.length ['.', '.'] ++ trr))

/-- Go filepath.Rel on unix. -/
def filepathRel (basepath targpath : String) : Option String :=
  (relList basepath.data targpath.data).map (fun l => ⟨l⟩)

/-- Go filepath.Join of two elements on unix: non-empty elements joined with
a separator, then cleaned; all-empty input stays empty. -/
def filepathJoin (a b : String) : String :=
  if a.data = [] then (if b.data = [] then ⟨[]⟩ else filepathClean b)
  else if b.data = [] then filepathClean a
  else ⟨cleanList (a.data ++ '/' :: b.data)⟩

/-- Go filepath.Dir on unix: everything up to and including the final
separator, cleaned ("." when there is no separator). -/
def filepathDir (s : String) : String :=
  ⟨cleanList ((s.data.reverse.dropWhile (fun c => c ≠ '/')).reverse)⟩

/-- Go filepath.Ext scan: walks the reversed path, stopping at a separator
(no extension) or at a dot (extension from the dot on). -/
def extAux : List Char → List Char → List Char
  | [], _ => []
  | c :: rest, acc =>
    if c = '/' then []
    else if c = '.' then '.' :: acc
    else extAux rest (c :: acc)

/-- Go filepath.Ext on unix. -/
def filepathExt (s : String) : String :=
  ⟨extAux s.data.reverse []⟩

/- ---------------------------------------------------------------------
The server's path layer (src/lsp.go).
--------------------------------------------------------------------- -/

/-- The two error shapes of the path layer: filepath.Rel failing, and the
containment check failing. -/
inductive PathError where
  | makeRelative
  | outsideRoot
deriving DecidableEq, Repr

/-- toRootRelativePath (src/lsp.go): converts file URIs, absolute, or
relative paths to a root-relative path.  On unix filepath.FromSlash and
filepath.ToSlash are the identity. -/
def toRootRelativePath (rootPath raw : String) : Except PathError String :=
  let raw1 :=
    match goCutPrefixStr raw "file://" with
    | some after => after
    | none => raw
  let clean := filepathClean raw1
  if filepathIsAbs clean then
    match filepathRel rootPath clean with
    | none => .error .makeRelative
    | some rel =>
      if goHasPrefixStr rel ".." then .error .outsideRoot
      else .ok rel
  else
    if goHasPrefixStr clean ".." then .error .outsideRoot
    else .ok clean

/-- relativePathToAbsoluteURI (src/lsp.go): builds a file URI from a
root-relative path. -/
def relativePathToAbsoluteURI (rootPath rel : String) : Except PathError String :=
  if goHasPrefixStr rel ".." then .error .outsideRoot
  else .ok ("file://" ++ filepathClean (filepathJoin rootPath rel))

/-- tagfilePathToRootRelative (tagfile parser): a path from a tags file is
interpreted relative to the tagfile's directory when not absolute, then made
root-relative. -/
def tagfilePathToRootRelative (rootPath tagsPath raw : String) : Except PathError String :=
  let raw1 :=
    match goCutPrefixStr raw "file://" with
    | some after => after
    | none => raw
  let clean := filepathClean raw1
  let clean1 :=
    if filepathIsAbs clean then clean
    else filepathClean (filepathJoin (filepathDir tagsPath) clean)
  toRootRelativePath rootPath clean1

/- ---------------------------------------------------------------------
Specification-side notions for the containment claim: where a raw input
path resolves, independently of the code under test.
--------------------------------------------------------------------- -/

/-- The elements of an absolute path after cleaning (the leading empty
element produced by the root separator is consumed by the clean scan). -/
def absPathComps (l : List Char) : List (List Char) :=
  cleanComps true (splitChar '/' l)

/-- Where a raw request path resolves: its URI scheme is stripped, and a
relative path is resolved against the workspace root. -/
def resolvedComps (root raw : String) : List (List Char) :=
  let raw1 :=
    match goCutPrefixStr raw "file://" with
    | some after => after
    | none => raw
  if isAbsList (cleanList raw1.data) then absPathComps raw1.data
  else absPathComps (root.data ++ '/' :: raw1.data)

/-- A raw request path lies outside the workspace root when the root's
cleaned elements are not a prefix of the resolved path's elements. -/
def outsideRoot (root raw : String) : Prop :=
  ¬ (absPathComps root.data <+: resolvedComps root raw)

instance (root raw : String) : Decidable (outsideRoot root raw) := by
  unfold outsideRoot
  infer_instance

/- ---------------------------------------------------------------------
The tag record model (src/lsp.go TagEntry) and the tagfile parser's
kind map (src tagfile parser).
--------------------------------------------------------------------- -/

/-- One ctags entry (struct TagEntry). -/
structure TagEntry where
  typ : String
  name : String
  path : String
  pattern : String
  kind : String
  line : Int
  scope : String
  scopeKind : String
  typeRef : String
  language : String
deriving DecidableEq, Repr

/-- The tagfile kind map: per-language letter table, language-agnostic
fallback table, and the set of known kind names.  Go maps are modelled as
functions into Option / Bool. -/
structure TagfileKindMap where
  byLanguage : String → String → Option String
  anyLang : String → Option String
  kindNames : String → Bool

/-- newTagfileKindMap: all tables empty. -/
def newTagfileKindMap : TagfileKindMap :=
  { byLanguage := fun _ _ => none, anyLang := fun _ => none, kindNames := fun _ => false }

/-- TagfileKindMap.add: store a letter mapping for a language ("default"
when empty), record the letter in the fallback table only when absent, and
track the kind name. -/
def TagfileKindMap.add (m : TagfileKindMap) (language letter kind : String) : TagfileKindMap :=
  let language := if language = "" then "default" else language
  { byLanguage := fun l k =>
      if l = language ∧ k = letter then some kind else m.byLanguage l k
    anyLang := fun k =>
      if k = letter then
        match m.anyLang letter with
        | some v => some v
        | none => some kind
      else m.anyLang k
    kindNames := fun k => k = kind ∨ m.kindNames k }

/-- TagfileKindMap.resolve: language-specific table first (when a language
is given), then the language-agnostic one. -/
def TagfileKindMap.resolve (m : TagfileKindMap) (language letter : String) : Option String :=
  match (if language ≠ "" then m.byLanguage language letter else none) with
  | some kind => some kind
  | none => m.anyLang letter

/-- TagfileKindMap.isKindName. -/
def TagfileKindMap.isKindName (m : TagfileKindMap) (kind : String) : Bool :=
  m.kindNames kind

/-- parseTagfileKindDescription: record a kind-letter mapping from a
"!_TAG_KIND_DESCRIPTION" header pragma line. -/
def parseTagfileKindDescription (line : String) (kindMap : TagfileKindMap) : TagfileKindMap :=
  if goHasPrefixStr line "!_TAG_KIND_DESCRIPTION" = false then kindMap
  else
    let fields := goSplit line '\t'
    if fields.length < 2 then kindMap
    else
      let language0 := goTrimPrefixStr fields.headI "!_TAG_KIND_DESCRIPTION"
      let language :=
        match goCutPrefixStr language0 "!" with
        | some after => after
        | none => ""
      let parts := goSplitN2 (fields.getD 1 "") ','
      if parts.length ≠ 2 then kindMap
      else
        let letter := parts.headI
        let kind := parts.getD 1 ""
        if letter = "" ∨ kind = "" then kindMap
        else kindMap.add language letter kind

/-- resolveTagfileKind: a one-byte kind value is resolved through the kind
map using the entry's language; anything else, or an unresolved letter, is
kept as-is.  (Go measures the length in bytes.) -/
def resolveTagfileKind (kindField : String) (language : String) (kindMap : TagfileKindMap) :
    String :=
  if goStrLen kindField ≠ 1 then kindField
  else
    match kindMap.resolve language kindField with
    | some mapped => mapped
    | none => kindField

/-- One extension field of a tagfile data line, applied to the accumulated
(entry, kind field) state. -/
def tagfileFieldStep (kindMap : TagfileKindMap) (st : TagEntry × String) (field : String) :
    TagEntry × String :=
  if field = "" then st
  else
    match goCut field ':' with
    | none => st
    | some (key, value) =>
      let entry := st.1
      if key = "line" then
        match goAtoi value with
        | some n => ({ entry with line := n }, st.2)
        | none => st
      else if key = "language" then ({ entry with language := value }, st.2)
      else if key = "kind" then (entry, value)
      else if key = "typeref" then ({ entry with typeRef := value }, st.2)
      else if key = "scope" then ({ entry with scope := value }, st.2)
      else if key = "scopeKind" then ({ entry with scopeKind := value }, st.2)
      else
        if entry.scope = "" ∧ entry.scopeKind = "" ∧ kindMap.isKindName key then
          ({ entry with scopeKind := key, scope := value }, st.2)
        else st

/-- parseTagfileEntry: parse one tagfile data line into a TagEntry; none
models the (TagEntry zero, false) return for invalid or out-of-root lines. -/
def parseTagfileEntry (line tagsPath rootPath : String) (kindMap : TagfileKindMap) :
    Option TagEntry :=
  let fields := goSplit line '\t'
  if fields.length < 3 then none
  else
    let entry0 : TagEntry :=
      { typ := "tag", name := fields.headI, path := fields.getD 1 "",
        pattern := goTrimSuffixStr (fields.getD 2 "") ";\"",
        kind := "", line := 0, scope := "", scopeKind := "", typeRef := "", language := "" }
    let kindAndIdx : String × Nat :=
      if 3 < fields.length ∧ goContainsChar (fields.getD 3 "") ':' = false then
        (fields.getD 3 "", 4)
      else ("", 3)
    let st := (fields.drop kindAndIdx.2).foldl (tagfileFieldStep kindMap) (entry0, kindAndIdx.1)
    let entry1 := st.1
    let entry2 :=
      if entry1.line = 0 then
        match goAtoi entry1.pattern with
        | some n => { entry1 with line := n }
        | none => entry1
      else entry1
    let entry3 :=
      if st.2 ≠ "" then { entry2 with kind := resolveTagfileKind st.2 entry2.language kindMap }
      else entry2
    match tagfilePathToRootRelative rootPath tagsPath entry3.path with
    | .error _ => none
    | .ok rel => some { entry3 with path := rel }

/- ---------------------------------------------------------------------
The tag index and the single-file rescan (src/ctags.go).
--------------------------------------------------------------------- -/

/-- The removal pass of scanSingleFileTag: keep, in order, every entry whose
path differs from the rescanned file. -/
def removeEntriesForPath (entries : List TagEntry) (filePath : String) : List TagEntry :=
  entries.filter (fun e => decide (e.path ≠ filePath))

/-- processTagsOutput on already-decoded ctags records (the external process
and its JSON framing are the system boundary; a line that fails to decode is
simply absent from the input list): each record's path is canonicalized and
records whose path cannot be made root-relative are dropped. -/
def processTagsEntries (rootPath : String) (output : List TagEntry) : List TagEntry :=
  output.filterMap (fun e =>
    match toRootRelativePath rootPath e.path with
    | .ok rel => some { e with path := rel }
    | .error _ => none)

/-- scanSingleFileTag: refuse out-of-root paths, drop the previous entries
for the path, then append the processed fresh scan output. -/
def scanSingleFileTag (rootPath : String) (entries : List TagEntry) (filePath : String)
    (ctagsOutput : List TagEntry) : Except String (List TagEntry) :=
  if goHasPrefixStr filePath ".." then .error "path outside root"
  else .ok (removeEntriesForPath entries filePath ++ processTagsEntries rootPath ctagsOutput)

/- ---------------------------------------------------------------------
LSP protocol data (src/lsp.go structures).
--------------------------------------------------------------------- -/

/-- A protocol position (Go int fields). -/
structure Position where
  line : Int
  character : Int
deriving DecidableEq, Repr

/-- A protocol range; the Go field End is called stop here. -/
structure Range where
  start : Position
  stop : Position
deriving DecidableEq, Repr

/-- A protocol location. -/
structure Location where
  uri : String
  range : Range
deriving DecidableEq, Repr

/-- Documentation content of a completion item. -/
structure MarkupContent where
  kind : String
  value : String
deriving DecidableEq, Repr

/-- A completion item as the handler builds it. -/
structure CompletionItem where
  label : String
  kind : Int
  detail : String
  documentation : MarkupContent
deriving DecidableEq, Repr

/-- Completion provider options. -/
structure CompletionOptions where
  triggerCharacters : List String
deriving DecidableEq, Repr

/-- Text document sync options. -/
structure TextDocumentSyncOptions where
  change : Int
  openClose : Bool
  save : Bool
deriving DecidableEq, Repr

/-- The capabilities advertised by handleInitialize. -/
structure ServerCapabilities where
  textDocumentSync : TextDocumentSyncOptions
  completionProvider : CompletionOptions
  definitionProvider : Bool
  workspaceSymbolProvider : Bool
  documentSymbolProvider : Bool
deriving DecidableEq, Repr

/-- The capabilities literal from handleInitialize (src/lsp.go). -/
def advertisedCapabilities : ServerCapabilities :=
  { textDocumentSync := { change := 1, openClose := true, save := true }
    completionProvider := { triggerCharacters := [".", "\""] }
    definitionProvider := true
    workspaceSymbolProvider := true
    documentSymbolProvider := true }

/-- Modelled from the spec: the numeric LSP code of the generic "text"
completion category.  The table GetLSPCompletionKind mapping ctags kind
names to these codes lives in a source file that is not part of src/; the
handlers below therefore take that table as a parameter, and only these
three distinguished codes matter to them. -/
def CompletionItemKindText : Int := 1

/-- Modelled from the spec: the numeric LSP code of the method completion
category (see CompletionItemKindText). -/
def CompletionItemKindMethod : Int := 2

/-- Modelled from the spec: the numeric LSP code of the function completion
category (see CompletionItemKindText). -/
def CompletionItemKindFunction : Int := 3

/- ---------------------------------------------------------------------
File cache and the query handlers (src/lsp.go).
--------------------------------------------------------------------- -/

/-- The file cache content map (FileCache.content): canonical path to
line-split text.  The same shape models the disk: readFileLines either
returns the file split at newlines or fails (none). -/
abbrev Cache := String → Option (List String)

/-- The server fields the query handlers read (struct Server). -/
structure Server where
  rootPath : String
  tagEntries : List TagEntry
  cache : Cache

/-- GetOrLoadFileContent: cache lookup first, disk read on a miss with
write-through.  The Bool records whether the disk was read at all. -/
def getOrLoadFileContent (cache disk : Cache) (filePath : String) :
    Option (List String) × Cache × Bool :=
  match cache filePath with
  | some content => (some content, cache, false)
  | none =>
    match disk filePath with
    | some lines => (some lines, fun p => if p = filePath then some lines else cache p, true)
    | none => (none, cache, true)

/-- isIdentifierChar. -/
def isIdentifierChar (c : Char) : Bool :=
  decide ('a' ≤ c ∧ c ≤ 'z') || decide ('A' ≤ c ∧ c ≤ 'Z') ||
  decide ('0' ≤ c ∧ c ≤ '9') || decide (c = '_') || decide (c = '$')

/-- Go slice indexing with an int index; none models the runtime panic on an
out-of-bounds (in particular negative) index. -/
def goIndexList (l : List α) (i : Int) : Option α :=
  if i < 0 then none else l.get? i.toNat

/-- The backward scan of getCurrentWord: while start is positive and the
rune before it is an identifier character, step left. -/
def scanBack (runes : List Char) : Nat → Nat
  | 0 => 0
  | k + 1 => if isIdentifierChar (runes.getD k ' ') then scanBack runes k else k + 1

/-- The forward scan of getCurrentWord over the suffix of the line that
starts at the cursor: while on an identifier character, step right. -/
def scanFwdAux : List Char → Nat → Nat
  | [], i => i
  | c :: rest, i => if isIdentifierChar c then scanFwdAux rest (i + 1) else i

/-- The forward scan of getCurrentWord: while inside the line and on an
identifier character, step right. -/
def scanForward (runes : List Char) (i : Nat) : Nat :=
  scanFwdAux (runes.drop i) i

/-- The two non-panicking outcomes of getCurrentWord. -/
inductive WordRes where
  | ok (w : String)
  | err
deriving DecidableEq, Repr

/-- getCurrentWord: load the document, bound-check the position, and widen
the cursor over identifier characters.  The outer none models the Go panic
on a negative position; err collects every error return. -/
def getCurrentWord (cache disk : Cache) (filePath : String) (pos : Position) :
    Option (WordRes × Cache × Bool) :=
  match getOrLoadFileContent cache disk filePath with
  | (none, c1, d1) => some (.err, c1, d1)
  | (some lines, c1, d1) =>
    if (lines.length : Int) ≤ pos.line then some (.err, c1, d1)
    else
      match goIndexList lines pos.line with
      | none => none
      | some line =>
        let runes := line.data
        if (runes.length : Int) < pos.character then some (.err, c1, d1)
        else if pos.character < 0 then none
        else
          let start := scanBack runes pos.character.toNat
          let stop := scanForward runes pos.character.toNat
          if start = stop then some (.err, c1, d1)
          else some (.ok ⟨(runes.drop start).take (stop - start)⟩, c1, d1)

/-- findSymbolRangeInFile: locate the symbol on its declaration line; a
zero-width range at an out-of-bounds line, the whole line when the name is
not on it.  (Go mixes a byte index from strings.Index with rune lengths;
the model does the same.) -/
def findSymbolRangeInFile (lines : List String) (symbolName : String) (lineNumber : Int) :
    Range :=
  let lineIdx := lineNumber - 1
  if lineIdx < 0 ∨ (lines.length : Int) ≤ lineIdx then
    { start := { line := lineIdx, character := 0 }, stop := { line := lineIdx, character := 0 } }
  else
    let lineContent := (goIndexList lines lineIdx).getD ""
    let startChar := stringsIndex lineContent symbolName
    if startChar = -1 then
      { start := { line := lineIdx, character := 0 }
        stop := { line := lineIdx, character := (lineContent.data.length : Int) } }
    else
      { start := { line := lineIdx, character := startChar }
        stop := { line := lineIdx, character := startChar + (symbolName.data.length : Int) } }

/-- The isAfterDot test of handleCompletion: the rune just before the cursor
exists and is a dot. -/
def completionIsAfterDot (runes : List Char) (pos : Position) : Bool :=
  if 0 < pos.character ∧ pos.character - 1 < (runes.length : Int) then
    decide (goIndexList runes (pos.character - 1) = some '.')
  else false

/-- The completion item literal built by handleCompletion for one entry. -/
def mkCompletionItem (kind : Int) (e : TagEntry) : CompletionItem :=
  { label := e.name, kind := kind
    detail := e.path ++ ":" ++ toString e.line ++ " (" ++ e.kind ++ ")"
    documentation := { kind := "plaintext", value := e.pattern } }

/-- The trigger-dependent filter of the candidate loop: after a dot, only
method or function kinds from a file with the document's extension; without
a trigger, text kinds or a matching extension. -/
def completionInclude (kindOf : String → Int) (rootPath currentFileExt : String)
    (isAfterDot : Bool) (e : TagEntry) : Bool :=
  let kind := kindOf e.kind
  let entryFileExt := filepathExt (filepathJoin rootPath e.path)
  if isAfterDot then
    decide ((kind = CompletionItemKindMethod ∨ kind = CompletionItemKindFunction) ∧
      entryFileExt = currentFileExt)
  else
    decide (kind = CompletionItemKindText ∨ entryFileExt = currentFileExt)

/-- The candidate loop of handleCompletion: case-insensitive prefix filter,
name dedup, then the trigger-dependent kind/extension filter.  kindOf stands
for GetLSPCompletionKind (whose table is outside src/). -/
def completionLoop (kindOf : String → Int) (rootPath currentFileExt word : String)
    (isAfterDot : Bool) : List TagEntry → List String → List CompletionItem
  | [], _ => []
  | e :: es, seen =>
    if goHasPrefixStr (goToLower e.name) (goToLower word) then
      if e.name ∈ seen then completionLoop kindOf rootPath currentFileExt word isAfterDot es seen
      else
        if completionInclude kindOf rootPath currentFileExt isAfterDot e then
          mkCompletionItem (kindOf e.kind) e ::
            completionLoop kindOf rootPath currentFileExt word isAfterDot es (e.name :: seen)
        else completionLoop kindOf rootPath currentFileExt word isAfterDot es seen
    else completionLoop kindOf rootPath currentFileExt word isAfterDot es seen

/-- A completion response: an RPC error or a completion list. -/
inductive CompletionResp where
  | rpcError (code : Int)
  | list (isIncomplete : Bool) (items : List CompletionItem)
deriving DecidableEq, Repr

/-- handleCompletion: canonicalize the document path, read the document from
the cache only (error -32603 on a miss or an out-of-range line), compute the
trigger state and current word, and run the candidate loop.  The result also
carries the cache afterwards and whether any disk read happened; the outer
none models a Go panic on a negative position. -/
def handleCompletion (kindOf : String → Int) (server : Server) (disk : Cache)
    (uri : String) (pos : Position) : Option (CompletionResp × Cache × Bool) :=
  match toRootRelativePath server.rootPath uri with
  | .error _ => some (.rpcError (-32603), server.cache, false)
  | .ok filePath =>
    let currentFileExt := filepathExt filePath
    match server.cache filePath with
    | none => some (.rpcError (-32603), server.cache, false)
    | some lines =>
      if (lines.length : Int) ≤ pos.line then some (.rpcError (-32603), server.cache, false)
      else
        match goIndexList lines pos.line with
        | none => none
        | some lineContent =>
          let isAfterDot := completionIsAfterDot lineContent.data pos
          match getCurrentWord server.cache disk filePath pos with
          | none => none
          | some (res, c1, d1) =>
            match res with
            | .err =>
              if isAfterDot then
                some (.list false
                  (completionLoop kindOf server.rootPath currentFileExt "" isAfterDot
                    server.tagEntries []), c1, d1)
              else some (.list false [], c1, d1)
            | .ok word =>
              some (.list false
                (completionLoop kindOf server.rootPath currentFileExt word isAfterDot
                  server.tagEntries []), c1, d1)

/-- A definition response: an RPC error, a null result, a bare location, or
a list of locations. -/
inductive DefinitionResp where
  | rpcError (code : Int)
  | nullResult
  | single (loc : Location)
  | many (locs : List Location)
deriving DecidableEq, Repr

/-- The entry loop of handleDefinition: for every entry whose name equals
the symbol, build its URI and load its file (skipping the entry when either
fails) and collect a location. -/
def defLoop (rootPath : String) (disk : Cache) (symbol : String) :
    List TagEntry → Cache → List Location × Cache × Bool
  | [], c => ([], c, false)
  | e :: es, c =>
    if e.name = symbol then
      match relativePathToAbsoluteURI rootPath e.path with
      | .error _ => defLoop rootPath disk symbol es c
      | .ok uri =>
        match getOrLoadFileContent c disk e.path with
        | (none, c1, d1) =>
          let r := defLoop rootPath disk symbol es c1
          (r.1, r.2.1, d1 || r.2.2)
        | (some content, c1, d1) =>
          let r := defLoop rootPath disk symbol es c1
          ({ uri := uri, range := findSymbolRangeInFile content e.name e.line } :: r.1,
            r.2.1, d1 || r.2.2)
    else defLoop rootPath disk symbol es c

/-- handleDefinition: canonicalize the document path, resolve the word under
the cursor (null result when there is none), then answer with no location,
one bare location, or the list, per the entry loop. -/
def handleDefinition (server : Server) (disk : Cache) (uri : String) (pos : Position) :
    Option (DefinitionResp × Cache × Bool) :=
  match toRootRelativePath server.rootPath uri with
  | .error _ => some (.rpcError (-32603), server.cache, false)
  | .ok filePath =>
    match getCurrentWord server.cache disk filePath pos with
    | none => none
    | some (.err, c1, d1) => some (.nullResult, c1, d1)
    | some (.ok symbol, c1, d1) =>
      let r := defLoop server.rootPath disk symbol server.tagEntries c1
      let resp :=
        match r.1 with
        | [] => DefinitionResp.nullResult
        | [l] => DefinitionResp.single l
        | ls => DefinitionResp.many ls
      some (resp, r.2.1, d1 || r.2.2)

/- ---------------------------------------------------------------------
The dispatch gate (src/lsp.go handleRequest).
--------------------------------------------------------------------- -/

/-- A JSON-RPC id: a string or an integer (other shapes are rejected by the
framing layer before dispatch). -/
inductive RpcId where
  | num (n : Int)
  | str (s : String)
deriving DecidableEq, Repr

/-- What dispatching one message does: run a named handler, do nothing, or
send an error response with a code. -/
inductive DispatchAction where
  | runs (handler : String)
  | silent
  | sendError (code : Int)
deriving DecidableEq, Repr

/-- isNotification: a message without an id. -/
def isNotificationId (id : Option RpcId) : Bool :=
  decide (id = none)

/-- handleRequest's routing: the not-initialized gate first (letting only
initialize, shutdown and exit through), then the method switch, with the
unknown-method default. -/
def handleRequestRoute (isInit : Bool) (id : Option RpcId) (method : String) :
    DispatchAction :=
  if isInit = false ∧ method ≠ "initialize" ∧ method ≠ "shutdown" ∧ method ≠ "exit" then
    if isNotificationId id then .silent else .sendError (-32002)
  else if method = "initialize" then .runs "handleInitialize"
  else if method = "initialized" then .silent
  else if method = "shutdown" then .runs "handleShutdown"
  else if method = "exit" then .runs "handleExit"
  else if method = "textDocument/didOpen" then .runs "handleDidOpen"
  else if method = "textDocument/didChange" then .runs "handleDidChange"
  else if method = "textDocument/didClose" then .runs "handleDidClose"
  else if method = "textDocument/didSave" then .runs "handleDidSave"
  else if method = "textDocument/completion" then .runs "handleCompletion"
  else if method = "textDocument/definition" then .runs "handleDefinition"
  else if method = "workspace/symbol" then .runs "handleWorkspaceSymbol"
  else if method = "textDocument/documentSymbol" then .runs "handleDocumentSymbol"
  else if method = "$/cancelRequest" then .silent
  else if method = "$/setTrace" then .silent
  else if method = "$/logTrace" then .silent
  else if isNotificationId id then .silent
  else .sendError (-32601)

/- ---------------------------------------------------------------------
Proof-side helpers describing handler results.
--------------------------------------------------------------------- -/

/-- The content a lookup-through-cache will see: the cache entry when
present, the disk otherwise. -/
def contentFor (cache disk : Cache) (p : String) : Option (List String) :=
  match cache p with
  | some c => some c
  | none => disk p

/-- The location handleDefinition builds for one entry, phrased against the
initial cache. -/
def locationFor (rootPath : String) (cache disk : Cache) (e : TagEntry) : Location :=
  { uri :=
      match relativePathToAbsoluteURI rootPath e.path with
      | .ok u => u
      | .error _ => ""
    range := findSymbolRangeInFile ((contentFor cache disk e.path).getD []) e.name e.line }

/-- The response shape handleDefinition gives a list of locations. -/
def respOfLocations : List Location → DefinitionResp
  | [] => .nullResult
  | [l] => .single l
  | ls => .many ls

/-- A cache reachable from cache0 by write-through loads from the disk:
every entry is the original one, or a disk fill of an original miss. -/
def cacheEvolved (cache0 disk c : Cache) : Prop :=
  ∀ p, c p = cache0 p ∨ (cache0 p = none ∧ c p = disk p)

/- ---------------------------------------------------------------------
Concrete sample data used by the witness theorems.
--------------------------------------------------------------------- -/

/-- A sample function entry in a.go. -/
def wEntryHelloA : TagEntry :=
  { typ := "tag", name := "Hello", path := "a.go", pattern := "/^func Hello/", kind := "func",
    line := 1, scope := "", scopeKind := "", typeRef := "", language := "Go" }

/-- A sample member entry in b.py. -/
def wEntryHelpB : TagEntry :=
  { wEntryHelloA with name := "Help", path := "b.py", kind := "member", line := 2 }

/-- A second sample entry named Hello, in c.go. -/
def wEntryHelloC : TagEntry :=
  { wEntryHelloA with path := "c.go", line := 3 }

/-- A sample completion-kind table (stands for GetLSPCompletionKind). -/
def wKindOf (k : String) : Int :=
  if k = "func" then CompletionItemKindFunction
  else if k = "member" then CompletionItemKindMethod
  else CompletionItemKindText

/-- A sample cache holding a.go. -/
def wCache : Cache :=
  fun p => if p = "a.go" then some ["func Hello() \x7b", "  He"] else none

/-- A sample server over root /w. -/
def wServer : Server :=
  { rootPath := "/w", tagEntries := [wEntryHelloA, wEntryHelpB, wEntryHelloC], cache := wCache }

/-- A sample disk holding c.go. -/
def wDisk : Cache :=
  fun p => if p = "c.go" then some ["x", "y", "z Hello w"] else none

/-- A sample cache whose a.go ends in an opening double quote. -/
def wCacheQuote : Cache :=
  fun p => if p = "a.go" then some ["f(\""] else none

/-- A sample server whose document ends in a double quote. -/
def wServerQuote : Server :=
  { rootPath := "/w", tagEntries := [wEntryHelloA], cache := wCacheQuote }

/-- A sample kind map registering (go, f) as function. -/
def wKindMap : TagfileKindMap :=
  TagfileKindMap.add newTagfileKindMap "go" "f" "function"

/- ---------------------------------------------------------------------
Theorems.  Claim theorems are named after what they check; each one is
preceded by the claim id it settles.
--------------------------------------------------------------------- -/

/-- C2: while the server is not yet initialized, dispatching any method other
than initialize, shutdown or exit runs no handler: a request (id present) is
answered with error code -32002 and a notification (id absent) produces
nothing at all. -/
theorem dispatchGateBlocksBeforeInit (id : Option RpcId) (method : String)
    (h1 : method ≠ "initialize") (h2 : method ≠ "shutdown") (h3 : method ≠ "exit") :
    handleRequestRoute false id method =
      (match id with
       | none => DispatchAction.silent
       | some _ => DispatchAction.sendError (-32002)) ∧
    ∀ h, handleRequestRoute false id method ≠ DispatchAction.runs h := by
  have hgate : handleRequestRoute false id method =
      if isNotificationId id then .silent else .sendError (-32002) := by
    unfold handleRequestRoute
    simp [h1, h2, h3]
  constructor
  · rw [hgate]
    cases id <;> simp [isNotificationId]
  · intro h
    rw [hgate]
    cases id <;> simp [isNotificationId]

/-- Witness for the dispatch gate: a concrete early completion request is
answered with -32002 and a concrete early didOpen notification is dropped. -/
theorem dispatchGateBlocksBeforeInit_witness :
    handleRequestRoute false (some (.num 1)) "textDocument/completion" =
      DispatchAction.sendError (-32002) ∧
    handleRequestRoute false none "textDocument/didOpen" = DispatchAction.silent := by
  refine ⟨?_, ?_⟩
  · exact (dispatchGateBlocksBeforeInit (some (.num 1)) "textDocument/completion"
      (by decide) (by decide) (by decide)).1
  · exact (dispatchGateBlocksBeforeInit none "textDocument/didOpen"
      (by decide) (by decide) (by decide)).1

/-- C5: after a successful single-file rescan, the index holds exactly the
freshly processed entries for that path, and the entries of every other path
are unchanged and keep their relative order. -/
theorem rescanReplacesOnlyThatPath (rootPath : String) (entries ctagsOutput : List TagEntry)
    (filePath : String) (out : List TagEntry)
    (hok : scanSingleFileTag rootPath entries filePath ctagsOutput = .ok out)
    (hfresh : ∀ e ∈ processTagsEntries rootPath ctagsOutput, e.path = filePath) :
    out.filter (fun e => decide (e.path = filePath)) = processTagsEntries rootPath ctagsOutput ∧
    out.filter (fun e => decide (e.path ≠ filePath)) =
      entries.filter (fun e => decide (e.path ≠ filePath)) := by
  unfold scanSingleFileTag at hok
  by_cases hpre : goHasPrefixStr filePath ".." = true
  · rw [if_pos hpre] at hok
    exact absurd hok (by simp)
  · rw [if_neg hpre] at hok
    have hout : out = removeEntriesForPath entries filePath ++ processTagsEntries rootPath ctagsOutput := by
      exact (Except.ok.injEq _ _ ▸ hok.symm : _)
    subst hout
    unfold removeEntriesForPath
    rw [List.filter_append, List.filter_append]
    constructor
    · have h1 : (entries.filter (fun e => decide (e.path ≠ filePath))).filter
          (fun e => decide (e.path = filePath)) = [] := by
        rw [List.filter_eq_nil_iff]
        intro a ha
        have := (List.mem_filter.mp ha).2
        simp at this ⊢
        exact this
      have h2 : (processTagsEntries rootPath ctagsOutput).filter
          (fun e => decide (e.path = filePath)) = processTagsEntries rootPath ctagsOutput := by
        rw [List.filter_eq_self]
        intro a ha
        simp [hfresh a ha]
      rw [h1, h2, List.nil_append]
    · have h1 : (entries.filter (fun e => decide (e.path ≠ filePath))).filter
          (fun e => decide (e.path ≠ filePath)) =
          entries.filter (fun e => decide (e.path ≠ filePath)) := by
        rw [List.filter_eq_self]
        intro a ha
        exact (List.mem_filter.mp ha).2
      have h2 : (processTagsEntries rootPath ctagsOutput).filter
          (fun e => decide (e.path ≠ filePath)) = [] := by
        rw [List.filter_eq_nil_iff]
        intro a ha
        simp [hfresh a ha]
      rw [h1, h2, List.append_nil]

/-- Witness for the rescan theorem: three a.go entries and one b.py entry,
rescanned with one fresh a.go entry, leave exactly that entry for a.go and
the b.py entry untouched. -/
theorem rescanReplacesOnlyThatPath_witness :
    scanSingleFileTag "/w" [wEntryHelloA, { wEntryHelloA with line := 7 },
        { wEntryHelloA with line := 9 }, wEntryHelpB] "a.go"
        [{ wEntryHelloA with name := "New" }] =
      .ok [wEntryHelpB, { wEntryHelloA with name := "New" }] ∧
    ([wEntryHelpB, { wEntryHelloA with name := "New" }].filter
        (fun e => decide (e.path = "a.go")) =
      processTagsEntries "/w" [{ wEntryHelloA with name := "New" }]) ∧
    ([wEntryHelpB, { wEntryHelloA with name := "New" }].filter
        (fun e => decide (e.path ≠ "a.go")) =
      [wEntryHelloA, { wEntryHelloA with line := 7 }, { wEntryHelloA with line := 9 },
        wEntryHelpB].filter (fun e => decide (e.path ≠ "a.go"))) := by
  refine ⟨by rfl, ?_⟩
  exact rescanReplacesOnlyThatPath "/w"
    [wEntryHelloA, { wEntryHelloA with line := 7 }, { wEntryHelloA with line := 9 }, wEntryHelpB]
    [{ wEntryHelloA with name := "New" }] "a.go"
    [wEntryHelpB, { wEntryHelloA with name := "New" }] (by rfl) (by decide)

/-- C6: the header pragma registering (go, f) as "function" makes a data line
with kind:f and language:go parse to an entry whose kind is "function"; in
general a one-letter kind resolves through the per-language table first, then
the language-agnostic one, and stays the bare letter when neither knows it. -/
theorem tagfileKindLetterResolution :
    ((parseTagfileEntry "Hello\tmain.go\t/^func Hello$/;\"\tkind:f\tlanguage:go" "/w/tags" "/w"
        (parseTagfileKindDescription "!_TAG_KIND_DESCRIPTION!go\tf,function"
          newTagfileKindMap)).map TagEntry.kind = some "function") ∧
    (∀ (m : TagfileKindMap) (language letter mapped : String), goStrLen letter = 1 →
      language ≠ "" → m.byLanguage language letter = some mapped →
      resolveTagfileKind letter language m = mapped) ∧
    (∀ (m : TagfileKindMap) (language letter mapped : String), goStrLen letter = 1 →
      (language = "" ∨ m.byLanguage language letter = none) → m.anyLang letter = some mapped →
      resolveTagfileKind letter language m = mapped) ∧
    (∀ (m : TagfileKindMap) (language letter : String), goStrLen letter = 1 →
      (language = "" ∨ m.byLanguage language letter = none) → m.anyLang letter = none →
      resolveTagfileKind letter language m = letter) := by
  refine ⟨by decide, ?_, ?_, ?_⟩
  · intro m language letter mapped hlen hlang hmap
    simp [resolveTagfileKind, TagfileKindMap.resolve, hlen, hlang, hmap]
  · intro m language letter mapped hlen hlang hmap
    rcases hlang with h | h
    · simp [resolveTagfileKind, TagfileKindMap.resolve, hlen, h, hmap]
    · simp [resolveTagfileKind, TagfileKindMap.resolve, hlen, h, hmap]
  · intro m language letter hlen hlang hmap
    rcases hlang with h | h
    · simp [resolveTagfileKind, TagfileKindMap.resolve, hlen, h, hmap]
    · simp [resolveTagfileKind, TagfileKindMap.resolve, hlen, h, hmap]

/-- Witness for the kind resolution theorem: the registered letter f with
language go resolves to "function", an unregistered g with empty language
falls back to the bare letter. -/
theorem tagfileKindLetterResolution_witness :
    resolveTagfileKind "f" "go" wKindMap = "function" ∧
    resolveTagfileKind "g" "" wKindMap = "g" := by
  constructor
  · exact tagfileKindLetterResolution.2.1 wKindMap "go" "f" "function"
      (by decide) (by decide) (by decide)
  · exact tagfileKindLetterResolution.2.2.2 wKindMap "" "g" (by decide) (Or.inl rfl) (by decide)

/-- C9: a completion request for a document absent from the cache is an
internal error -32603 with no disk read at all, even though the lazy loader
that definition and the symbol handlers use does fill the same cache from
the disk on a miss. -/
theorem completionCacheMissIsInternalError (kindOf : String → Int) (server : Server)
    (disk : Cache) (uri : String) (pos : Position) (filePath : String)
    (hpath : toRootRelativePath server.rootPath uri = .ok filePath)
    (hmiss : server.cache filePath = none) :
    handleCompletion kindOf server disk uri pos =
      some (.rpcError (-32603), server.cache, false) ∧
    (∀ p lines, server.cache p = none → disk p = some lines →
      getOrLoadFileContent server.cache disk p =
        (some lines, fun q => if q = p then some lines else server.cache q, true)) := by
  constructor
  · unfold handleCompletion
    rw [hpath]
    simp [hmiss]
  · intro p lines h1 h2
    unfold getOrLoadFileContent
    rw [h1, h2]

/-- Witness for the completion cache-miss theorem: a concrete request for a
missing document errors without touching the disk, while the lazy loader on
the same cache does read c.go from the disk. -/
theorem completionCacheMissIsInternalError_witness :
    handleCompletion wKindOf wServer wDisk "file:///w/missing.go" { line := 0, character := 0 } =
      some (.rpcError (-32603), wServer.cache, false) ∧
    getOrLoadFileContent wServer.cache wDisk "c.go" =
      (some ["x", "y", "z Hello w"],
        fun q => if q = "c.go" then some ["x", "y", "z Hello w"] else wServer.cache q, true) := by
  have h := completionCacheMissIsInternalError wKindOf wServer wDisk "file:///w/missing.go"
    { line := 0, character := 0 } "missing.go" (by rfl) (by rfl)
  exact ⟨h.1, h.2 "c.go" ["x", "y", "z Hello w"] (by rfl) (by rfl)⟩

/-- Unpack a successful Go slice access: the index is non-negative, in
bounds, and the element is there. -/
theorem goIndexList_eq_some {l : List α} {i : Int} {a : α} (h : goIndexList l i = some a) :
    0 ≤ i ∧ i.toNat < l.length ∧ l.get? i.toNat = some a := by
  unfold goIndexList at h
  by_cases hi : i < 0
  · rw [if_pos hi] at h
    exact absurd h (by simp)
  · rw [if_neg hi] at h
    exact ⟨by omega, (List.get?_eq_some.mp h).choose, h⟩

/-- The backward scan stops immediately on a non-identifier character. -/
theorem scanBack_stop {runes : List Char} {k : Nat}
    (h : isIdentifierChar (runes.getD k ' ') = false) :
    scanBack runes (k + 1) = k + 1 := by
  simp only [scanBack]
  rw [h]
  simp

/-- The forward scan stops immediately outside the line. -/
theorem scanForward_stop_out {runes : List Char} {i : Nat} (h : ¬ i < runes.length) :
    scanForward runes i = i := by
  unfold scanForward
  rw [List.drop_eq_nil_of_le (by omega)]
  simp [scanFwdAux]

/-- The forward scan stops immediately on a non-identifier character. -/
theorem scanForward_stop_in {runes : List Char} {i : Nat} (h : i < runes.length)
    (hid : isIdentifierChar (runes.getD i ' ') = false) :
    scanForward runes i = i := by
  unfold scanForward
  rw [List.drop_eq_getElem_cons h]
  have hg : runes.getD i ' ' = runes[i] := by
    rw [List.getD_eq_getElem?_getD, List.getElem?_eq_getElem h, Option.getD_some]
  rw [hg] at hid
  simp [scanFwdAux, hid]

/-- getCurrentWord returns its no-word error, without any disk read, when
both the character before the cursor and the character at the cursor (when
any) fail the identifier test. -/
theorem getCurrentWord_no_word (cache disk : Cache) (filePath : String) (pos : Position)
    (lines : List String) (lineStr : String)
    (hcache : cache filePath = some lines)
    (hline2 : goIndexList lines pos.line = some lineStr)
    (hlinelt : pos.line < (lines.length : Int))
    (hposc : 0 < pos.character)
    (hprev : ∃ c, goIndexList lineStr.data (pos.character - 1) = some c ∧
      isIdentifierChar c = false)
    (hcur : ∀ c, goIndexList lineStr.data pos.character = some c →
      isIdentifierChar c = false) :
    getCurrentWord cache disk filePath pos = some (.err, cache, false) := by
  obtain ⟨cp, hcp, hcpid⟩ := hprev
  obtain ⟨hc1, hc2, hc3⟩ := goIndexList_eq_some hcp
  have hchar_le : pos.character ≤ (lineStr.data.length : Int) := by omega
  have htn : (pos.character - 1).toNat = pos.character.toNat - 1 := by omega
  have htn1 : 1 ≤ pos.character.toNat := by omega
  have hload : getOrLoadFileContent cache disk filePath = (some lines, cache, false) := by
    unfold getOrLoadFileContent
    rw [hcache]
  have hnl : ¬ ((lines.length : Int) ≤ pos.line) := by omega
  have hnc : ¬ ((lineStr.data.length : Int) < pos.character) := by omega
  have hstart : scanBack lineStr.data pos.character.toNat = pos.character.toNat := by
    have hk : pos.character.toNat = (pos.character.toNat - 1) + 1 := by omega
    rw [hk]
    apply scanBack_stop
    rw [List.getD_eq_getElem?_getD]
    rw [htn, List.get?_eq_getElem?] at hc3
    rw [hc3, Option.getD_some]
    exact hcpid
  have hstop : scanForward lineStr.data pos.character.toNat = pos.character.toNat := by
    by_cases hin : pos.character.toNat < lineStr.data.length
    · apply scanForward_stop_in hin
      rw [List.getD_eq_getElem?_getD, List.getElem?_eq_getElem hin, Option.getD_some]
      apply hcur
      unfold goIndexList
      rw [if_neg (by omega : ¬ pos.character < 0), List.get?_eq_getElem?,
        List.getElem?_eq_getElem hin]
    · exact scanForward_stop_out hin
  unfold getCurrentWord
  rw [hload]
  simp [hline2, hnl, hnc, hstart, hstop, (by omega : ¬ pos.character < 0)]
  all_goals omega

/-- C10: the initialize capabilities advertise both "." and the double quote
as completion triggers, yet a completion whose cursor follows a double quote
with no identifier characters adjacent yields the empty completion list
(not an empty-prefix query over all entries). -/
theorem quoteTriggerYieldsEmptyCompletion :
    advertisedCapabilities.completionProvider.triggerCharacters = [".", "\""] ∧
    (∀ (kindOf : String → Int) (server : Server) (disk : Cache) (uri : String)
      (pos : Position) (filePath : String) (lines : List String) (lineStr : String),
      toRootRelativePath server.rootPath uri = .ok filePath →
      server.cache filePath = some lines →
      pos.line < (lines.length : Int) →
      goIndexList lines pos.line = some lineStr →
      0 < pos.character →
      goIndexList lineStr.data (pos.character - 1) = some '"' →
      (∀ c, goIndexList lineStr.data pos.character = some c → isIdentifierChar c = false) →
      handleCompletion kindOf server disk uri pos = some (.list false [], server.cache, false)) := by
  refine ⟨rfl, ?_⟩
  intro kindOf server disk uri pos filePath lines lineStr hpath hcache hlt hline2 hposc hquote hcur
  have hword := getCurrentWord_no_word server.cache disk filePath pos lines lineStr hcache
    hline2 hlt hposc ⟨'"', hquote, by decide⟩ hcur
  have hdot : completionIsAfterDot lineStr.data pos = false := by
    obtain ⟨hc1, hc2, hc3⟩ := goIndexList_eq_some hquote
    unfold completionIsAfterDot
    rw [if_pos ⟨hposc, by omega⟩]
    rw [hquote]
    decide
  unfold handleCompletion
  rw [hpath]
  have hnl : ¬ ((lines.length : Int) ≤ pos.line) := by omega
  simp only [hcache, if_neg hnl]
  rw [hline2, hword]
  simp [hdot]

/-- Witness for the quote-trigger theorem: a concrete completion whose line
ends in an opening double quote yields the empty list without disk access. -/
theorem quoteTriggerYieldsEmptyCompletion_witness :
    handleCompletion wKindOf wServerQuote wDisk "file:///w/a.go" { line := 0, character := 3 } =
      some (.list false [], wServerQuote.cache, false) := by
  exact quoteTriggerYieldsEmptyCompletion.2 wKindOf wServerQuote wDisk "file:///w/a.go"
    { line := 0, character := 3 } "a.go" ["f(\""] "f(\"" (by rfl) (by rfl) (by decide)
    (by rfl) (by decide) (by rfl)
    (by intro c hc; simp [goIndexList] at hc)

/-- What a true include decision says about the entry, split by the trigger
state. -/
theorem completionInclude_true {kindOf : String → Int} {rootPath currentFileExt : String}
    {isAfterDot : Bool} {e : TagEntry}
    (h : completionInclude kindOf rootPath currentFileExt isAfterDot e = true) :
    (isAfterDot = true →
      (kindOf e.kind = CompletionItemKindMethod ∨ kindOf e.kind = CompletionItemKindFunction) ∧
      filepathExt (filepathJoin rootPath e.path) = currentFileExt) ∧
    (isAfterDot = false →
      kindOf e.kind = CompletionItemKindText ∨
        filepathExt (filepathJoin rootPath e.path) = currentFileExt) := by
  cases isAfterDot
  · simp only [completionInclude] at h
    simp at h
    simp [h]
  · simp only [completionInclude] at h
    simp at h
    simp [h]

/-- Every item the candidate loop emits comes from one of the entries it was
given and passed the include decision for the loop's trigger state. -/
theorem completionLoop_mem (kindOf : String → Int) (rootPath currentFileExt word : String)
    (isAfterDot : Bool) :
    ∀ (es : List TagEntry) (seen : List String) (item : CompletionItem),
      item ∈ completionLoop kindOf rootPath currentFileExt word isAfterDot es seen →
      ∃ e, e ∈ es ∧ item.label = e.name ∧
        completionInclude kindOf rootPath currentFileExt isAfterDot e = true := by
  intro es
  induction es with
  | nil =>
    intro seen item h
    simp [completionLoop] at h
  | cons e es ih =>
    intro seen item h
    rw [completionLoop] at h
    by_cases h1 : goHasPrefixStr (goToLower e.name) (goToLower word) = true
    · rw [if_pos h1] at h
      by_cases h2 : e.name ∈ seen
      · rw [if_pos h2] at h
        obtain ⟨e1, he1, hrest⟩ := ih _ _ h
        exact ⟨e1, List.mem_cons_of_mem _ he1, hrest⟩
      · rw [if_neg h2] at h
        by_cases h3 : completionInclude kindOf rootPath currentFileExt isAfterDot e = true
        · rw [if_pos h3] at h
          rcases List.mem_cons.mp h with hhead | htail
          · refine ⟨e, List.mem_cons_self _ _, ?_, h3⟩
            rw [hhead]
            rfl
          · obtain ⟨e1, he1, hrest⟩ := ih _ _ htail
            exact ⟨e1, List.mem_cons_of_mem _ he1, hrest⟩
        · rw [if_neg h3] at h
          obtain ⟨e1, he1, hrest⟩ := ih _ _ h
          exact ⟨e1, List.mem_cons_of_mem _ he1, hrest⟩
    · rw [if_neg h1] at h
      obtain ⟨e1, he1, hrest⟩ := ih _ _ h
      exact ⟨e1, List.mem_cons_of_mem _ he1, hrest⟩

/-- C4: every item a completion answer contains originates from a tag entry
that passes the trigger-dependent filter: after a member-access dot, only
method or function kinds with the document's file extension; otherwise text
kinds or a matching file extension. -/
theorem completionItemsRespectFilter (kindOf : String → Int) (server : Server) (disk : Cache)
    (uri : String) (pos : Position) (filePath : String) (lines : List String) (lineStr : String)
    (items : List CompletionItem) (c1 : Cache) (d1 : Bool)
    (hpath : toRootRelativePath server.rootPath uri = .ok filePath)
    (hcache : server.cache filePath = some lines)
    (hline2 : goIndexList lines pos.line = some lineStr)
    (hrun : handleCompletion kindOf server disk uri pos = some (.list false items, c1, d1)) :
    ∀ item ∈ items, ∃ e, e ∈ server.tagEntries ∧ item.label = e.name ∧
      (completionIsAfterDot lineStr.data pos = true →
        (kindOf e.kind = CompletionItemKindMethod ∨ kindOf e.kind = CompletionItemKindFunction) ∧
        filepathExt (filepathJoin server.rootPath e.path) = filepathExt filePath) ∧
      (completionIsAfterDot lineStr.data pos = false →
        kindOf e.kind = CompletionItemKindText ∨
          filepathExt (filepathJoin server.rootPath e.path) = filepathExt filePath) := by
  unfold handleCompletion at hrun
  rw [hpath] at hrun
  simp only [hcache] at hrun
  by_cases hl : (lines.length : Int) ≤ pos.line
  · rw [if_pos hl] at hrun
    simp at hrun
  · rw [if_neg hl] at hrun
    rw [hline2] at hrun
    simp only [] at hrun
    cases hw : getCurrentWord server.cache disk filePath pos with
    | none =>
      rw [hw] at hrun
      simp at hrun
    | some r =>
      obtain ⟨res, cc, dd⟩ := r
      rw [hw] at hrun
      have hfromLoop : items = [] ∨ ∃ word,
          items = completionLoop kindOf server.rootPath (filepathExt filePath) word
            (completionIsAfterDot lineStr.data pos) server.tagEntries [] := by
        cases res with
        | err =>
          by_cases hdot : completionIsAfterDot lineStr.data pos = true
          · rw [hdot] at hrun
            simp at hrun
            right
            exact ⟨"", by rw [hdot]; exact hrun.1.symm⟩
          · have hdot2 : completionIsAfterDot lineStr.data pos = false := by
              revert hdot; cases completionIsAfterDot lineStr.data pos <;> simp
            rw [hdot2] at hrun
            simp at hrun
            left
            exact hrun.1
        | ok w =>
          right
          refine ⟨w, ?_⟩
          simp at hrun
          exact hrun.1.symm
      intro item hitem
      rcases hfromLoop with hnil | ⟨word, hloop⟩
      · rw [hnil] at hitem
        simp at hitem
      · rw [hloop] at hitem
        obtain ⟨e, he, hlabel, hinc⟩ :=
          completionLoop_mem kindOf server.rootPath (filepathExt filePath) word
            (completionIsAfterDot lineStr.data pos) server.tagEntries [] item hitem
        exact ⟨e, he, hlabel, (completionInclude_true hinc).1, (completionInclude_true hinc).2⟩

/-- Witness for the completion filter theorem: the concrete prefix query on
"He" returns exactly the Hello item, whose entry passes the no-trigger
filter through its matching .go extension. -/
theorem completionItemsRespectFilter_witness :
    ∃ e, e ∈ wServer.tagEntries ∧
      (mkCompletionItem 3 wEntryHelloA).label = e.name ∧
      (completionIsAfterDot "  He".data { line := 1, character := 4 } = true →
        (wKindOf e.kind = CompletionItemKindMethod ∨ wKindOf e.kind = CompletionItemKindFunction) ∧
        filepathExt (filepathJoin wServer.rootPath e.path) = filepathExt "a.go") ∧
      (completionIsAfterDot "  He".data { line := 1, character := 4 } = false →
        wKindOf e.kind = CompletionItemKindText ∨
          filepathExt (filepathJoin wServer.rootPath e.path) = filepathExt "a.go") := by
  have h := completionItemsRespectFilter wKindOf wServer wDisk "file:///w/a.go"
    { line := 1, character := 4 } "a.go" ["func Hello() \x7b", "  He"] "  He"
    [mkCompletionItem 3 wEntryHelloA] wServer.cache false
    (by rfl) (by rfl) (by rfl) (by rfl)
  exact h (mkCompletionItem 3 wEntryHelloA) (by simp)

/-- The lazy loader keeps a cache consistent with its origin: the value read
is what a fresh cache-then-disk lookup would see, and the written-through
cache is still reachable from the origin. -/
theorem getOrLoad_consistent {cache0 disk c : Cache} (h : cacheEvolved cache0 disk c)
    (p : String) :
    (getOrLoadFileContent c disk p).1 = contentFor cache0 disk p ∧
    cacheEvolved cache0 disk (getOrLoadFileContent c disk p).2.1 := by
  unfold getOrLoadFileContent contentFor
  cases hcp : c p with
  | some x =>
    refine ⟨?_, by simpa using h⟩
    rcases h p with hp | ⟨h0, hp⟩
    · have hx : cache0 p = some x := hp.symm.trans hcp
      simp [hx]
    · have hx : disk p = some x := hp.symm.trans hcp
      simp [h0, hx]
  | none =>
    have h0 : cache0 p = none := by
      rcases h p with hp | ⟨h1, hp⟩
      · exact hp.symm.trans hcp
      · exact h1
    cases hdp : disk p with
    | some lines =>
      refine ⟨by simp [h0], ?_⟩
      intro q
      by_cases hq : q = p
      · subst hq
        exact Or.inr ⟨h0, by simp [hdp]⟩
      · simpa [hq] using h q
    | none =>
      exact ⟨by simp [h0], by simpa using h⟩

/-- getCurrentWord's returned cache is the one the lazy document load
produced. -/
theorem getCurrentWord_cache {cache disk : Cache} {fp : String} {pos : Position}
    {res : WordRes} {c1 : Cache} {d1 : Bool}
    (h : getCurrentWord cache disk fp pos = some (res, c1, d1)) :
    c1 = (getOrLoadFileContent cache disk fp).2.1 := by
  unfold getCurrentWord at h
  rcases hG : getOrLoadFileContent cache disk fp with ⟨v, c2, d2⟩
  rw [hG] at h
  cases v with
  | none =>
    simp at h
    exact h.2.1.symm
  | some lines =>
    simp only [] at h
    split at h
    · simp at h
      exact h.2.1.symm
    · split at h
      · simp at h
      · split at h
        · simp at h
          exact h.2.1.symm
        · split at h
          · simp at h
          · split at h
            · simp at h
              exact h.2.1.symm
            · simp at h
              exact h.2.1.symm

/-- The definition entry loop, run from any consistently evolved cache with
every matching entry resolvable, produces exactly one location per matching
entry, in index order. -/
theorem defLoop_spec (rootPath : String) (disk : Cache) (symbol : String) (cache0 : Cache) :
    ∀ (es : List TagEntry) (c : Cache), cacheEvolved cache0 disk c →
      (∀ e ∈ es, e.name = symbol →
        (∃ u, relativePathToAbsoluteURI rootPath e.path = .ok u) ∧
        contentFor cache0 disk e.path ≠ none) →
      (defLoop rootPath disk symbol es c).1 =
        (es.filter (fun e => decide (e.name = symbol))).map
          (locationFor rootPath cache0 disk) ∧
      cacheEvolved cache0 disk (defLoop rootPath disk symbol es c).2.1 := by
  intro es
  induction es with
  | nil =>
    intro c hc hav
    constructor
    · simp [defLoop]
    · simpa [defLoop] using hc
  | cons e es ih =>
    intro c hc hav
    rw [defLoop]
    by_cases hname : e.name = symbol
    · obtain ⟨⟨u, hu⟩, hcontent⟩ := hav e (List.mem_cons_self _ _) hname
      rw [if_pos hname, hu]
      obtain ⟨content, hcontent2⟩ := Option.ne_none_iff_exists'.mp hcontent
      obtain ⟨h1, h2⟩ := getOrLoad_consistent hc e.path
      rcases hG : getOrLoadFileContent c disk e.path with ⟨v, c2, d2⟩
      rw [hG] at h1 h2
      simp at h1 h2
      rw [hcontent2] at h1
      subst h1
      dsimp only
      have htail := ih c2 h2 (fun x hx hn => hav x (List.mem_cons_of_mem _ hx) hn)
      constructor
      · have hfil : List.filter (fun x => decide (x.name = symbol)) (e :: es) =
            e :: List.filter (fun x => decide (x.name = symbol)) es := by
          simp [List.filter_cons, hname]
        rw [hfil, List.map_cons, ← htail.1]
        have hloc : locationFor rootPath cache0 disk e =
            { uri := u, range := findSymbolRangeInFile content e.name e.line } := by
          unfold locationFor
          rw [hu, hcontent2]
          rfl
        rw [hloc]
      · exact htail.2
    · rw [if_neg hname]
      have htail := ih c hc (fun x hx hn => hav x (List.mem_cons_of_mem _ hx) hn)
      constructor
      · rw [htail.1]
        congr 1
        simp [List.filter_cons, hname]
      · exact htail.2

/-- C3: a definition request answers null when no identifier is at the
cursor; otherwise, with every matching entry resolvable, it answers null on
zero matches, a bare location on exactly one match, and the list of
locations in index order on two or more. -/
theorem definitionAnswerShape (server : Server) (disk : Cache) (uri : String) (pos : Position)
    (filePath : String)
    (hpath : toRootRelativePath server.rootPath uri = .ok filePath) :
    (∀ c1 d1, getCurrentWord server.cache disk filePath pos = some (.err, c1, d1) →
      handleDefinition server disk uri pos = some (.nullResult, c1, d1)) ∧
    (∀ w c1 d1, getCurrentWord server.cache disk filePath pos = some (.ok w, c1, d1) →
      (∀ e ∈ server.tagEntries, e.name = w →
        (∃ u, relativePathToAbsoluteURI server.rootPath e.path = .ok u) ∧
        contentFor server.cache disk e.path ≠ none) →
      ∃ c2 d2, handleDefinition server disk uri pos =
        some (respOfLocations
          ((server.tagEntries.filter (fun e => decide (e.name = w))).map
            (locationFor server.rootPath server.cache disk)), c2, d2)) := by
  constructor
  · intro c1 d1 hw
    unfold handleDefinition
    rw [hpath]
    dsimp only
    rw [hw]
  · intro w c1 d1 hw hav
    have hc1 : cacheEvolved server.cache disk c1 := by
      rw [getCurrentWord_cache hw]
      exact (getOrLoad_consistent (fun p => Or.inl rfl) filePath).2
    have hloop := defLoop_spec server.rootPath disk w server.cache server.tagEntries c1 hc1 hav
    unfold handleDefinition
    rw [hpath]
    dsimp only
    rw [hw]
    refine ⟨(defLoop server.rootPath disk w server.tagEntries c1).2.1,
      d1 || (defLoop server.rootPath disk w server.tagEntries c1).2.2, ?_⟩
    rw [← hloop.1]
    rcases hL : (defLoop server.rootPath disk w server.tagEntries c1).1 with _ | ⟨l, ls⟩
    · simp [respOfLocations, hL]
    · cases ls with
      | nil => simp [respOfLocations, hL]
      | cons l2 ls2 => simp [respOfLocations, hL]

/-- Witness for the definition shape theorem: the concrete word Hello has
two matching entries, giving a location list in index order. -/
theorem definitionAnswerShape_witness :
    ∃ c2 d2, handleDefinition wServer wDisk "file:///w/a.go" { line := 0, character := 6 } =
      some (respOfLocations
        ((wServer.tagEntries.filter (fun e => decide (e.name = "Hello"))).map
          (locationFor wServer.rootPath wServer.cache wDisk)), c2, d2) := by
  exact (definitionAnswerShape wServer wDisk "file:///w/a.go" { line := 0, character := 6 }
    "a.go" (by rfl)).2 "Hello" wServer.cache false (by rfl)
    (by
      intro e he hn
      simp only [wServer, List.mem_cons, List.not_mem_nil, or_false] at he
      rcases he with h | h | h
      · subst h
        exact ⟨⟨"file:///w/a.go", by rfl⟩, by decide⟩
      · subst h
        exact absurd hn (by decide)
      · subst h
        exact ⟨⟨"file:///w/c.go", by rfl⟩, by decide⟩)

/- ---------------------------------------------------------------------
Split/join and Clean lemmas for the path layer.
--------------------------------------------------------------------- -/

/-- splitChar never produces the empty list of parts. -/
theorem splitChar_ne_nil (sep : Char) (l : List Char) : splitChar sep l ≠ [] := by
  cases l with
  | nil => simp [splitChar]
  | cons c rest =>
    rw [splitChar]
    by_cases h : c = sep
    · simp [h]
    · rw [if_neg h]
      cases hs : splitChar sep rest with
      | nil => simp
      | cons s ss => simp

/-- Every part splitChar produces is free of the separator. -/
theorem mem_splitChar_not_sep (sep : Char) (l : List Char) :
    ∀ x ∈ splitChar sep l, sep ∉ x := by
  induction l with
  | nil =>
    intro x hx
    simp [splitChar] at hx
    simp [hx]
  | cons c rest ih =>
    intro x hx
    rw [splitChar] at hx
    by_cases h : c = sep
    · rw [if_pos h] at hx
      rcases List.mem_cons.mp hx with h1 | h1
      · simp [h1]
      · exact ih x h1
    · rw [if_neg h] at hx
      cases hs : splitChar sep rest with
      | nil => exact absurd hs (splitChar_ne_nil sep rest)
      | cons s ss =>
        rw [hs] at hx
        rcases List.mem_cons.mp hx with h1 | h1
        · subst h1
          intro hmem
          rcases List.mem_cons.mp hmem with h2 | h2
          · exact h h2.symm
          · exact ih s (hs ▸ List.mem_cons_self s ss) h2
        · exact ih x (hs ▸ List.mem_cons_of_mem s h1)

/-- Splitting a separator-free list yields that single part. -/
theorem splitChar_no_sep {sep : Char} {l : List Char} (h : sep ∉ l) :
    splitChar sep l = [l] := by
  induction l with
  | nil => simp [splitChar]
  | cons c rest ih =>
    rw [splitChar]
    have hc : ¬ c = sep := fun hh => h (hh ▸ List.mem_cons_self c rest)
    rw [if_neg hc, ih (fun hm => h (List.mem_cons_of_mem c hm))]

/-- Splitting distributes over a separator placed between two lists. -/
theorem splitChar_append (sep : Char) (a b : List Char) :
    splitChar sep (a ++ sep :: b) = splitChar sep a ++ splitChar sep b := by
  induction a with
  | nil => simp [splitChar]
  | cons c rest ih =>
    by_cases h : c = sep
    · subst h
      show splitChar c ((c :: rest) ++ c :: b) = splitChar c (c :: rest) ++ splitChar c b
      rw [List.cons_append, splitChar, if_pos rfl, ih]
      conv_rhs => rw [splitChar, if_pos rfl]
      rfl
    · rw [List.cons_append, splitChar, if_neg h, ih]
      conv_rhs => rw [splitChar, if_neg h]
      cases hs : splitChar sep rest with
      | nil => exact absurd hs (splitChar_ne_nil sep rest)
      | cons s ss => rfl

/-- Joining the parts of a split gives back the original list. -/
theorem joinChar_splitChar (sep : Char) (l : List Char) :
    joinChar sep (splitChar sep l) = l := by
  induction l with
  | nil => simp [splitChar, joinChar]
  | cons c rest ih =>
    rw [splitChar]
    by_cases h : c = sep
    · rw [if_pos h]
      cases hs : splitChar sep rest with
      | nil => exact absurd hs (splitChar_ne_nil sep rest)
      | cons s ss =>
        rw [joinChar]
        · rw [hs] at ih
          simp [ih, h]
        · exact List.cons_ne_nil s ss
    · rw [if_neg h]
      cases hs : splitChar sep rest with
      | nil => exact absurd hs (splitChar_ne_nil sep rest)
      | cons s ss =>
        rw [hs] at ih
        cases ss with
        | nil => simp_all [joinChar]
        | cons s2 ss2 => simp_all [joinChar]

/-- Splitting the join of separator-free parts gives back the parts. -/
theorem splitChar_joinChar (sep : Char) (l : List (List Char)) (hl : l ≠ [])
    (h : ∀ x ∈ l, sep ∉ x) :
    splitChar sep (joinChar sep l) = l := by
  induction l with
  | nil => exact absurd rfl hl
  | cons x xs ih =>
    cases xs with
    | nil =>
      rw [joinChar]
      exact splitChar_no_sep (h x (List.mem_cons_self x []))
    | cons y ys =>
      rw [joinChar]
      · rw [splitChar_append sep x (joinChar sep (y :: ys)),
          splitChar_no_sep (h x (List.mem_cons_self _ _)),
          ih (List.cons_ne_nil y ys) (fun z hz => h z (List.mem_cons_of_mem x hz))]
        rfl
      · exact List.cons_ne_nil y ys

/-- The head part is a prefix of a join. -/
theorem prefix_joinChar_cons (sep : Char) (x : List Char) (xs : List (List Char)) :
    x <+: joinChar sep (x :: xs) := by
  cases xs with
  | nil => exact List.prefix_refl x
  | cons y ys =>
    rw [joinChar]
    · exact List.prefix_append x (sep :: joinChar sep (y :: ys))
    · exact List.cons_ne_nil y ys

/-- cleanCore distributes over appended element lists. -/
theorem cleanCore_append (r : Bool) (s : List (List Char)) (a b : List (List Char)) :
    cleanCore r s (a ++ b) = cleanCore r (cleanCore r s a) b :=
  List.foldl_append _ _ _ _

/-- cleanCore over plain elements (no "", ".", "..") pushes them all. -/
theorem cleanCore_normal (r : Bool) :
    ∀ (comps : List (List Char)) (s : List (List Char)),
      (∀ c ∈ comps, c ≠ [] ∧ c ≠ ['.'] ∧ c ≠ ['.', '.']) →
      cleanCore r s comps = comps.reverse ++ s := by
  intro comps
  induction comps with
  | nil => intro s h; simp [cleanCore]
  | cons c cs ih =>
    intro s h
    obtain ⟨h1, h2, h3⟩ := h c (List.mem_cons_self _ _)
    have hstep : cleanStep r s c = c :: s := by
      unfold cleanStep
      rw [if_neg (by simp [h1, h2]), if_neg h3]
    have : cleanCore r s (c :: cs) = cleanCore r (c :: s) cs := by
      unfold cleanCore
      simp [List.foldl_cons, hstep]
    rw [this, ih (c :: s) (fun x hx => h x (List.mem_cons_of_mem c hx))]
    simp

/-- Elements on a cleanCore stack are non-empty, not ".", and free of the
separator, provided the inputs and the initial stack are. -/
theorem cleanCore_mem (r : Bool) :
    ∀ (comps : List (List Char)) (s : List (List Char)),
      (∀ c ∈ comps, '/' ∉ c) →
      (∀ x ∈ s, x ≠ [] ∧ x ≠ ['.'] ∧ '/' ∉ x) →
      ∀ x ∈ cleanCore r s comps, x ≠ [] ∧ x ≠ ['.'] ∧ '/' ∉ x := by
  intro comps
  induction comps with
  | nil => intro s hc hs; simpa [cleanCore] using hs
  | cons c cs ih =>
    intro s hc hs
    have hstep : ∀ x ∈ cleanStep r s c, x ≠ [] ∧ x ≠ ['.'] ∧ '/' ∉ x := by
      intro x hx
      unfold cleanStep at hx
      by_cases h1 : c = [] ∨ c = ['.']
      · rw [if_pos h1] at hx
        exact hs x hx
      · rw [if_neg h1] at hx
        by_cases h2 : c = ['.', '.']
        · rw [if_pos h2] at hx
          cases s with
          | nil =>
            cases r with
            | true => simp at hx
            | false =>
              simp at hx
              subst hx
              refine ⟨by simp, by simp, by decide⟩
          | cons h0 t0 =>
            dsimp only at hx
            by_cases h3 : h0 = ['.', '.']
            · rw [if_pos h3] at hx
              rcases List.mem_cons.mp hx with h4 | h4
              · subst h4; exact ⟨by simp, by simp, by decide⟩
              · exact hs x h4
            · rw [if_neg h3] at hx
              exact hs x (List.mem_cons_of_mem h0 hx)
        · rw [if_neg h2] at hx
          rcases List.mem_cons.mp hx with h4 | h4
          · subst h4
            push_neg at h1
            exact ⟨h1.1, h1.2, hc x (List.mem_cons_self _ _)⟩
          · exact hs x h4
    have : cleanCore r s (c :: cs) = cleanCore r (cleanStep r s c) cs := by
      unfold cleanCore
      simp [List.foldl_cons]
    rw [this]
    exact ih (cleanStep r s c) (fun x hx => hc x (List.mem_cons_of_mem c hx)) hstep

/-- The relative and the rooted clean scans simulate each other: starting
from a dot-free emitted prefix with j pending ".."s (relative) respectively
the same prefix over a dot-free base stack with j elements consumed
(rooted), they end in the same relation. -/
theorem cleanCore_sim :
    ∀ (comps : List (List Char)) (pr : List (List Char)) (j : Nat) (s : List (List Char)),
      (∀ x ∈ pr, x ≠ ['.', '.']) → (∀ x ∈ s, x ≠ ['.', '.']) →
      ∃ pr2 j2, (∀ x ∈ pr2, x ≠ ['.', '.']) ∧
        cleanCore false (pr ++ List.replicate j ['.', '.']) comps =
          pr2 ++ List.replicate j2 ['.', '.'] ∧
        cleanCore true (pr ++ s.drop j) comps = pr2 ++ s.drop j2 := by
  intro comps
  induction comps with
  | nil =>
    intro pr j s hpr hs
    exact ⟨pr, j, hpr, rfl, rfl⟩
  | cons c cs ih =>
    intro pr j s hpr hs
    have hfold : ∀ (r : Bool) (st : List (List Char)),
        cleanCore r st (c :: cs) = cleanCore r (cleanStep r st c) cs := by
      intro r st
      unfold cleanCore
      simp [List.foldl_cons]
    rw [hfold, hfold]
    by_cases h1 : c = [] ∨ c = ['.']
    · have e1 : cleanStep false (pr ++ List.replicate j ['.', '.']) c =
          pr ++ List.replicate j ['.', '.'] := by
        unfold cleanStep
        rw [if_pos h1]
      have e2 : cleanStep true (pr ++ s.drop j) c = pr ++ s.drop j := by
        unfold cleanStep
        rw [if_pos h1]
      rw [e1, e2]
      exact ih pr j s hpr hs
    · by_cases h2 : c = ['.', '.']
      · subst h2
        cases pr with
        | cons p pt =>
          have hp : ¬ p = ['.', '.'] := hpr p (List.mem_cons_self _ _)
          have e1 : cleanStep false ((p :: pt) ++ List.replicate j ['.', '.']) ['.', '.'] =
              pt ++ List.replicate j ['.', '.'] := by
            unfold cleanStep
            rw [if_neg h1, if_pos rfl]
            simp [hp]
          have e2 : cleanStep true ((p :: pt) ++ s.drop j) ['.', '.'] = pt ++ s.drop j := by
            unfold cleanStep
            rw [if_neg h1, if_pos rfl]
            simp [hp]
          rw [e1, e2]
          exact ih pt j s (fun x hx => hpr x (List.mem_cons_of_mem p hx)) hs
        | nil =>
          have e1 : cleanStep false ([] ++ List.replicate j ['.', '.']) ['.', '.'] =
              [] ++ List.replicate (j + 1) ['.', '.'] := by
            unfold cleanStep
            rw [if_neg h1, if_pos rfl]
            cases j with
            | zero => simp
            | succ k => simp [List.replicate_succ]
          have e2 : cleanStep true ([] ++ s.drop j) ['.', '.'] = [] ++ s.drop (j + 1) := by
            unfold cleanStep
            rw [if_neg h1, if_pos rfl]
            cases hd : s.drop j with
            | nil =>
              have := List.drop_drop 1 j s
              rw [hd] at this
              simpa using this.symm
            | cons h0 t0 =>
              have hh0 : ¬ h0 = ['.', '.'] :=
                hs h0 (List.mem_of_mem_drop (hd ▸ List.mem_cons_self h0 t0))
              have hdd : s.drop (j + 1) = t0 := by
                have := List.drop_drop 1 j s
                rw [hd] at this
                simpa using this.symm
              simp [hh0, hdd]
          rw [e1, e2]
          exact ih [] (j + 1) s (by simp) hs
      · have hcpush : ∀ st, cleanStep false st c = c :: st ∧ cleanStep true st c = c :: st := by
          intro st
          constructor <;>
          · unfold cleanStep
            rw [if_neg h1, if_neg h2]
        have e1 := (hcpush (pr ++ List.replicate j ['.', '.'])).1
        have e2 := (hcpush (pr ++ s.drop j)).2
        rw [e1, e2]
        have ih2 := ih (c :: pr) j s
          (by
            intro x hx
            rcases List.mem_cons.mp hx with h4 | h4
            · subst h4; exact h2
            · exact hpr x h4)
          hs
        simpa using ih2

/-- The relative scan from a pending-dots stack over more dots piles them
up. -/
theorem cleanCore_dots : ∀ (j k : Nat),
    cleanCore false (List.replicate k ['.', '.']) (List.replicate j ['.', '.']) =
      List.replicate (j + k) ['.', '.'] := by
  intro j
  induction j with
  | zero => intro k; simp [cleanCore]
  | succ i ih =>
    intro k
    have hstep : cleanStep false (List.replicate k ['.', '.']) ['.', '.'] =
        List.replicate (k + 1) ['.', '.'] := by
      unfold cleanStep
      rw [if_neg (by simp), if_pos rfl]
      cases k with
      | zero => simp
      | succ k2 => simp [List.replicate_succ]
    have : cleanCore false (List.replicate k ['.', '.'])
        (List.replicate (i + 1) ['.', '.']) =
        cleanCore false (List.replicate (k + 1) ['.', '.'])
          (List.replicate i ['.', '.']) := by
      rw [List.replicate_succ]
      unfold cleanCore
      simp [List.foldl_cons, hstep]
    rw [this, ih (k + 1)]
    congr 1
    omega

/-- The rooted scan from the empty stack leaves no ".." on the stack. -/
theorem cleanCore_rooted_nil_noDots (comps : List (List Char)) :
    ∀ x ∈ cleanCore true [] comps, x ≠ ['.', '.'] := by
  obtain ⟨pr2, j2, hnd, _, he⟩ :=
    cleanCore_sim comps [] 0 [] (by simp) (by simp)
  simp only [List.nil_append, List.drop_nil] at he
  rw [he]
  intro x hx
  exact hnd x (by simpa using hx)

/-- The relative scan from the empty stack ends in emitted elements over
pending dots. -/
theorem cleanCore_rel_shape (comps : List (List Char)) :
    ∃ pr j, (∀ x ∈ pr, x ≠ ['.', '.']) ∧
      cleanCore false [] comps = pr ++ List.replicate j ['.', '.'] := by
  obtain ⟨pr2, j2, hnd, he, _⟩ :=
    cleanCore_sim comps [] 0 ([] : List (List Char)) (by simp) (by simp)
  exact ⟨pr2, j2, hnd, by simpa using he⟩

/-- The cleaned elements of a relative path: leading ".."s then dot-free
elements. -/
theorem cleanComps_rel_shape (comps : List (List Char)) :
    ∃ j plain, (∀ x ∈ plain, x ≠ ['.', '.']) ∧
      cleanComps false comps = List.replicate j ['.', '.'] ++ plain := by
  obtain ⟨pr, j, hnd, he⟩ := cleanCore_rel_shape comps
  refine ⟨j, pr.reverse, fun x hx => hnd x (List.mem_reverse.mp hx), ?_⟩
  unfold cleanComps
  rw [he, List.reverse_append, List.reverse_replicate]

/-- Cleaned elements are non-empty, not ".", and slash-free. -/
theorem cleanComps_mem (r : Bool) (l : List Char) :
    ∀ x ∈ cleanComps r (splitChar '/' l), x ≠ [] ∧ x ≠ ['.'] ∧ '/' ∉ x := by
  intro x hx
  exact cleanCore_mem r (splitChar '/' l) [] (mem_splitChar_not_sep '/' l) (by simp) x
    (List.mem_reverse.mp hx)

/-- Elements of an absolute path's cleaned form are plain: non-empty, no
dot forms, slash-free. -/
theorem absPathComps_mem (l : List Char) :
    ∀ x ∈ absPathComps l, x ≠ [] ∧ x ≠ ['.'] ∧ x ≠ ['.', '.'] ∧ '/' ∉ x := by
  intro x hx
  obtain ⟨h1, h2, h3⟩ := cleanComps_mem true l x hx
  refine ⟨h1, h2, ?_, h3⟩
  exact cleanCore_rooted_nil_noDots (splitChar '/' l) x (List.mem_reverse.mp hx)

/-- Scanning plain elements emits them unchanged. -/
theorem cleanComps_of_normal (r : Bool) (comps : List (List Char))
    (h : ∀ c ∈ comps, c ≠ [] ∧ c ≠ ['.'] ∧ c ≠ ['.', '.']) :
    cleanComps r comps = comps := by
  unfold cleanComps
  rw [cleanCore_normal r comps [] h]
  simp

/-- The rendering of Clean on a rooted path. -/
theorem cleanList_abs_render {l : List Char} (h : isAbsList l = true) :
    cleanList l = '/' :: joinChar '/' (absPathComps l) := by
  unfold cleanList absPathComps
  rw [h]
  simp

/-- Splitting the rendering of a cleaned rooted path. -/
theorem splitChar_cleanList_abs {l : List Char} (h : isAbsList l = true) :
    splitChar '/' (cleanList l) =
      if absPathComps l = [] then [[], []] else [] :: absPathComps l := by
  rw [cleanList_abs_render h]
  rw [splitChar, if_pos rfl]
  by_cases hc : absPathComps l = []
  · rw [if_pos hc, hc]
    simp [joinChar, splitChar]
  · rw [if_neg hc]
    rw [splitChar_joinChar '/' (absPathComps l) hc
      (fun x hx => (absPathComps_mem l x hx).2.2.2)]

/-- Cleaning does not change whether a path is rooted. -/
theorem isAbsList_cleanList (l : List Char) : isAbsList (cleanList l) = isAbsList l := by
  by_cases h : isAbsList l = true
  · rw [h, cleanList_abs_render h]
    rfl
  · have h0 : isAbsList l = false := by
      revert h; cases isAbsList l <;> simp
    rw [h0]
    unfold cleanList
    rw [h0]
    simp only [Bool.false_eq_true, if_false]
    by_cases hc : cleanComps false (splitChar '/' l) = []
    · rw [if_pos hc]
      rfl
    · rw [if_neg hc]
      cases hcs : cleanComps false (splitChar '/' l) with
      | nil => exact absurd hcs hc
      | cons c0 cs =>
        obtain ⟨hne, _, hns⟩ := cleanComps_mem false l c0 (hcs ▸ List.mem_cons_self _ _)
        obtain ⟨t, ht⟩ := prefix_joinChar_cons '/' c0 cs
        rw [← ht]
        cases c0 with
        | nil => exact absurd rfl hne
        | cons ch ct =>
          have hch : ¬ ch = '/' := fun hh => hns (hh ▸ List.mem_cons_self _ _)
          unfold isAbsList
          split
          · rename_i heq
            injection heq with hh1 hh2
            exact absurd hh1 hch
          · rfl

/-- Cleaning an already-cleaned rooted path keeps the same elements. -/
theorem absPathComps_cleanList {l : List Char} (h : isAbsList l = true) :
    absPathComps (cleanList l) = absPathComps l := by
  by_cases hc : absPathComps l = []
  · rw [hc]
    show cleanComps true (splitChar '/' (cleanList l)) = []
    rw [splitChar_cleanList_abs h, if_pos hc]
    decide
  · show cleanComps true (splitChar '/' (cleanList l)) = absPathComps l
    rw [splitChar_cleanList_abs h, if_neg hc]
    have hstep : cleanStep true [] ([] : List Char) = [] := by
      unfold cleanStep
      simp
    have hnorm := cleanComps_of_normal true (absPathComps l)
      (fun c hcm => ⟨(absPathComps_mem l c hcm).1, (absPathComps_mem l c hcm).2.1,
        (absPathComps_mem l c hcm).2.2.1⟩)
    calc cleanComps true ([] :: absPathComps l)
        = (cleanCore true (cleanStep true [] []) (absPathComps l)).reverse := rfl
      _ = (cleanCore true [] (absPathComps l)).reverse := by rw [hstep]
      _ = cleanComps true (absPathComps l) := rfl
      _ = absPathComps l := hnorm

/-- The rendering of Clean on a relative path with surviving elements. -/
theorem cleanList_rel_render {l : List Char} (h : isAbsList l = false)
    (hc : cleanComps false (splitChar '/' l) ≠ []) :
    cleanList l = joinChar '/' (cleanComps false (splitChar '/' l)) := by
  unfold cleanList
  rw [h]
  simp only [Bool.false_eq_true, if_false]
  rw [if_neg hc]

/-- The rendering of Clean on a relative path with no surviving elements. -/
theorem cleanList_rel_dot {l : List Char} (h : isAbsList l = false)
    (hc : cleanComps false (splitChar '/' l) = []) :
    cleanList l = ['.'] := by
  unfold cleanList
  rw [h]
  simp only [Bool.false_eq_true, if_false]
  rw [if_pos hc]

/-- Go filepath.Clean is idempotent. -/
theorem cleanList_idem (l : List Char) : cleanList (cleanList l) = cleanList l := by
  by_cases h : isAbsList l = true
  · have h2 : isAbsList (cleanList l) = true := by
      rw [isAbsList_cleanList]
      exact h
    rw [cleanList_abs_render h2, absPathComps_cleanList h, ← cleanList_abs_render h]
  · have h0 : isAbsList l = false := by
      revert h
      cases isAbsList l <;> simp
    have h2 : isAbsList (cleanList l) = false := by
      rw [isAbsList_cleanList]
      exact h0
    by_cases hc : cleanComps false (splitChar '/' l) = []
    · rw [cleanList_rel_dot h0 hc]
      decide
    · have hrender := cleanList_rel_render h0 hc
      obtain ⟨j, plain, hplain, hshape⟩ := cleanComps_rel_shape (splitChar '/' l)
      have hmem := cleanComps_mem false l
      have hsplit : splitChar '/' (cleanList l) = cleanComps false (splitChar '/' l) := by
        rw [hrender]
        exact splitChar_joinChar '/' _ hc (fun x hx => (hmem x hx).2.2)
      have hfix : cleanComps false (cleanComps false (splitChar '/' l)) =
          cleanComps false (splitChar '/' l) := by
        conv_lhs => rw [hshape]
        unfold cleanComps
        rw [cleanCore_append]
        rw [show cleanCore false [] (List.replicate j ['.', '.']) =
          List.replicate j ['.', '.'] from by simpa using cleanCore_dots j 0]
        rw [cleanCore_normal false plain (List.replicate j ['.', '.'])
          (fun x hx => ⟨(hmem x (hshape ▸ List.mem_append_right _ hx)).1,
            (hmem x (hshape ▸ List.mem_append_right _ hx)).2.1, hplain x hx⟩)]
        rw [show (cleanCore false [] (splitChar '/' l)).reverse =
          List.replicate j ['.', '.'] ++ plain from hshape]
        simp [List.reverse_append, List.reverse_replicate]
      have hcc : cleanComps false (splitChar '/' (cleanList l)) =
          cleanComps false (splitChar '/' l) := by
        rw [hsplit, hfix]
      rw [cleanList_rel_render h2 (by rw [hcc]; exact hc), hcc, ← hrender]

/-- Dropping the common prefix on both sides: the two remainders are the
drops at the common length, whose takes agree. -/
theorem dropCommon_spec [DecidableEq α] :
    ∀ (a b : List α), ∃ n, dropCommon a b = a.drop n ∧ dropCommon b a = b.drop n ∧
      a.take n = b.take n := by
  intro a
  induction a with
  | nil =>
    intro b
    refine ⟨0, rfl, ?_, rfl⟩
    cases b <;> rfl
  | cons x xs ih =>
    intro b
    cases b with
    | nil => exact ⟨0, rfl, rfl, rfl⟩
    | cons y ys =>
      by_cases h : x = y
      · subst h
        obtain ⟨n, h1, h2, h3⟩ := ih ys
        refine ⟨n + 1, ?_, ?_, ?_⟩
        · unfold dropCommon
          rw [if_pos rfl]
          exact h1
        · unfold dropCommon
          rw [if_pos rfl]
          exact h2
        · simp [List.take_succ_cons, h3]
      · refine ⟨0, ?_, ?_, rfl⟩
        · unfold dropCommon
          rw [if_neg h]
          rfl
        · unfold dropCommon
          rw [if_neg (fun hh => h hh.symm)]
          rfl

/-- The common-prefix remainder is empty exactly on a list prefix. -/
theorem dropCommon_eq_nil_iff [DecidableEq α] :
    ∀ (a b : List α), dropCommon a b = [] ↔ a <+: b := by
  intro a
  induction a with
  | nil =>
    intro b
    constructor
    · intro _
      exact List.nil_prefix
    · intro _
      rfl
  | cons x xs ih =>
    intro b
    cases b with
    | nil =>
      constructor
      · intro h
        exact absurd h (by simp [dropCommon])
      · intro h
        exact absurd (List.IsPrefix.length_le h) (by simp)
    | cons y ys =>
      by_cases h : x = y
      · subst h
        constructor
        · intro hdc
          unfold dropCommon at hdc
          rw [if_pos rfl] at hdc
          exact List.cons_prefix_cons.mpr ⟨rfl, (ih ys).mp hdc⟩
        · intro hpre
          unfold dropCommon
          rw [if_pos rfl]
          exact (ih ys).mpr (List.cons_prefix_cons.mp hpre).2
      · constructor
        · intro hdc
          unfold dropCommon at hdc
          rw [if_neg h] at hdc
          exact absurd hdc (by simp)
        · intro hpre
          exact absurd (List.cons_prefix_cons.mp hpre).1 h

/-- A join headed by ".." starts with the two dots. -/
theorem isPrefixOf_dd_joinChar (xs : List (List Char)) :
    List.isPrefixOf ['.', '.'] (joinChar '/' (['.', '.'] :: xs)) = true := by
  exact List.isPrefixOf_iff_prefix.mpr
    (List.IsPrefix.trans (List.prefix_refl _) (prefix_joinChar_cons '/' _ xs))

/-- A join of non-empty slash-free parts is not rooted. -/
theorem isAbsList_joinChar_eq_false (comps : List (List Char)) (hne : comps ≠ [])
    (hq : ∀ x ∈ comps, x ≠ [] ∧ '/' ∉ x) :
    isAbsList (joinChar '/' comps) = false := by
  cases comps with
  | nil => exact absurd rfl hne
  | cons c0 cs =>
    obtain ⟨h1, h2⟩ := hq c0 (List.mem_cons_self _ _)
    obtain ⟨t, ht⟩ := prefix_joinChar_cons '/' c0 cs
    rw [← ht]
    cases c0 with
    | nil => exact absurd rfl h1
    | cons ch ct =>
      have hch : ¬ ch = '/' := fun hh => h2 (hh ▸ List.mem_cons_self _ _)
      unfold isAbsList
      split
      · rename_i heq
        injection heq with hh1 hh2
        exact absurd hh1 hch
      · rfl

/-- A join of non-empty slash-free parts does not carry the file scheme
(its seventh character would have to follow a double slash). -/
theorem cutPrefixStr_file_join (comps : List (List Char)) (hne : comps ≠ [])
    (hq : ∀ x ∈ comps, x ≠ [] ∧ '/' ∉ x) :
    goCutPrefixStr ⟨joinChar '/' comps⟩ "file://" = none := by
  unfold goCutPrefixStr
  rw [if_neg]
  intro hpre
  obtain ⟨t, ht⟩ := List.isPrefixOf_iff_prefix.mp hpre
  have hd : ("file://" : String).data = ['f', 'i', 'l', 'e', ':', '/', '/'] := rfl
  rw [hd] at ht
  simp only [] at ht
  have hsplitj : splitChar '/' (joinChar '/' comps) = comps :=
    splitChar_joinChar '/' comps hne (fun x hx => (hq x hx).2)
  have hform : joinChar '/' comps = ['f', 'i', 'l', 'e', ':'] ++ '/' :: ('/' :: t) := by
    rw [← ht]
    rfl
  have : comps = ['f', 'i', 'l', 'e', ':'] :: [] :: splitChar '/' t := by
    rw [← hsplitj, hform, splitChar_append]
    rw [splitChar_no_sep (by decide)]
    rw [show splitChar '/' ('/' :: t) = [] :: splitChar '/' t from by rw [splitChar, if_pos rfl]]
    rfl
  have hmem : ([] : List Char) ∈ comps := by
    rw [this]
    simp
  exact (hq [] hmem).1 rfl

/-- The dot path does not carry the file scheme. -/
theorem cutPrefixStr_file_dot : goCutPrefixStr ⟨['.']⟩ "file://" = none := by
  decide

/-- toRootRelativePath maps a canonical root-relative path to itself. -/
theorem toRootRelativePath_canon (root : String) (c : String)
    (hshape : c.data = ['.'] ∨ ∃ comps, comps ≠ [] ∧
      (∀ x ∈ comps, x ≠ [] ∧ x ≠ ['.'] ∧ x ≠ ['.', '.'] ∧ '/' ∉ x) ∧
      c.data = joinChar '/' comps)
    (hnp : goHasPrefixStr c ".." = false) :
    toRootRelativePath root c = .ok c := by
  have hcs : c = (⟨c.data⟩ : String) := rfl
  have hcut : goCutPrefixStr c "file://" = none := by
    rcases hshape with hdot | ⟨comps, hne, hq, hjoin⟩
    · rw [hcs, hdot]
      exact cutPrefixStr_file_dot
    · rw [hcs, hjoin]
      exact cutPrefixStr_file_join comps hne (fun x hx => ⟨(hq x hx).1, (hq x hx).2.2.2⟩)
  have hclean : filepathClean c = c := by
    rcases hshape with hdot | ⟨comps, hne, hq, hjoin⟩
    · rw [hcs, hdot]
      decide
    · unfold filepathClean
      rw [hjoin]
      have habs0 : isAbsList (joinChar '/' comps) = false :=
        isAbsList_joinChar_eq_false comps hne (fun x hx => ⟨(hq x hx).1, (hq x hx).2.2.2⟩)
      have hsplitj : splitChar '/' (joinChar '/' comps) = comps :=
        splitChar_joinChar '/' comps hne (fun x hx => (hq x hx).2.2.2)
      have hcomps : cleanComps false (splitChar '/' (joinChar '/' comps)) = comps := by
        rw [hsplitj]
        exact cleanComps_of_normal false comps
          (fun x hx => ⟨(hq x hx).1, (hq x hx).2.1, (hq x hx).2.2.1⟩)
      rw [cleanList_rel_render habs0 (by rw [hcomps]; exact hne), hcomps, ← hjoin]
  have habs : filepathIsAbs c = false := by
    rcases hshape with hdot | ⟨comps, hne, hq, hjoin⟩
    · rw [hcs, hdot]
      decide
    · unfold filepathIsAbs
      rw [hjoin]
      exact isAbsList_joinChar_eq_false comps hne (fun x hx => ⟨(hq x hx).1, (hq x hx).2.2.2⟩)
  unfold toRootRelativePath
  rw [hcut]
  dsimp only
  rw [hclean, habs]
  simp only [Bool.false_eq_true, if_false]
  rw [hnp]
  simp

/-- dropCommon steps over equal heads. -/
theorem dropCommon_cons_eq [DecidableEq α] {a b : α} (as bs : List α) (h : a = b) :
    dropCommon (a :: as) (b :: bs) = dropCommon as bs := by
  simp only [dropCommon]
  rw [if_pos h]

/-- dropCommon stops at differing heads. -/
theorem dropCommon_cons_ne [DecidableEq α] {a b : α} (as bs : List α) (h : ¬ a = b) :
    dropCommon (a :: as) (b :: bs) = a :: as := by
  simp only [dropCommon]
  rw [if_neg h]

/-- What a successful filepath.Rel against an absolute target, whose result
does not climb, looks like: either the two paths clean to the same thing and
the result is ".", or the base is absolute, its cleaned elements are a
prefix of the target's, and the result joins exactly the remaining target
elements. -/
theorem relList_abs_analysis {base targ c : List Char}
    (htabs : isAbsList targ = true)
    (hrel : relList base targ = some c)
    (hnp : List.isPrefixOf ['.', '.'] c = false) :
    (cleanList base = cleanList targ ∧ c = ['.']) ∨
    (∃ trr, trr ≠ [] ∧
      (∀ x ∈ trr, x ≠ [] ∧ x ≠ ['.'] ∧ x ≠ ['.', '.'] ∧ '/' ∉ x) ∧
      c = joinChar '/' trr ∧
      absPathComps base ++ trr = absPathComps targ ∧
      isAbsList base = true) := by
  have htabs2 : isAbsList (cleanList targ) = true := by
    rw [isAbsList_cleanList]
    exact htabs
  unfold relList at hrel
  dsimp only at hrel
  by_cases hbt : cleanList base = cleanList targ
  · rw [if_pos hbt] at hrel
    simp at hrel
    exact Or.inl ⟨hbt, hrel.symm⟩
  · rw [if_neg hbt] at hrel
    by_cases hbabs : isAbsList base = true
    · have hb0abs : isAbsList (cleanList base) = true := by
        rw [isAbsList_cleanList]
        exact hbabs
      have hb0dot : ¬ cleanList base = ['.'] := by
        intro hh
        rw [hh] at hb0abs
        exact absurd hb0abs (by decide)
      rw [if_neg hb0dot] at hrel
      rw [if_neg (show ¬ (isAbsList (cleanList base) ≠ isAbsList (cleanList targ)) by
        rw [hb0abs, htabs2]
        simp)] at hrel
      have hb0ne : ¬ cleanList base = [] := by
        intro hh
        rw [hh] at hb0abs
        exact absurd hb0abs (by decide)
      rw [if_neg hb0ne] at hrel
      have hbc := splitChar_cleanList_abs hbabs
      have htc := splitChar_cleanList_abs htabs
      have hmemT := absPathComps_mem targ
      have hmemB := absPathComps_mem base
      by_cases hcT : absPathComps targ = []
      · -- the target cleans to "/": only reachable when the base does too,
        -- which collides with the equal-cleans case
        rw [if_pos hcT] at htc
        by_cases hcB : absPathComps base = []
        · exact absurd (by
            rw [cleanList_abs_render hbabs, hcB, cleanList_abs_render htabs, hcT]) hbt
        · rw [if_neg hcB] at hbc
          cases hB : absPathComps base with
          | nil => exact absurd hB hcB
          | cons cb0 cbrest =>
            have hcb0 : cb0 ≠ [] := (hmemB cb0 (hB ▸ List.mem_cons_self _ _)).1
            rw [hbc, htc, hB] at hrel
            rw [dropCommon_cons_eq _ _ rfl, dropCommon_cons_eq _ _ rfl,
              dropCommon_cons_ne _ _ hcb0,
              dropCommon_cons_ne _ _ (fun hh => hcb0 hh.symm)] at hrel
            have hhead : ¬ (cb0 :: cbrest).headI = ['.', '.'] := by
              simpa using (hmemB cb0 (hB ▸ List.mem_cons_self _ _)).2.2.1
            rw [if_neg hhead] at hrel
            rw [if_neg (show ¬ cb0 :: cbrest = [[]] by
              intro hh
              injection hh with hh1 hh2
              exact hcb0 hh1)] at hrel
            simp only [List.length_cons] at hrel
            rw [List.replicate_succ] at hrel
            have hcpre : List.isPrefixOf ['.', '.'] c = true := by
              have := Option.some.inj hrel
              rw [← this]
              exact isPrefixOf_dd_joinChar _
            rw [hcpre] at hnp
            exact absurd hnp (by decide)
      · rw [if_neg hcT] at htc
        by_cases hcB : absPathComps base = []
        · -- the base cleans to "/": every remaining target element survives
          rw [if_pos hcB] at hbc
          cases hT : absPathComps targ with
          | nil => exact absurd hT hcT
          | cons ct0 ctrest =>
            have hct0 : ct0 ≠ [] := (hmemT ct0 (hT ▸ List.mem_cons_self _ _)).1
            rw [hbc, htc, hT] at hrel
            rw [dropCommon_cons_eq _ _ rfl, dropCommon_cons_eq _ _ rfl,
              dropCommon_cons_ne _ _ (fun hh => hct0 hh.symm),
              dropCommon_cons_ne _ _ hct0] at hrel
            rw [if_neg (show ¬ ([[]] : List (List Char)).headI = ['.', '.'] by decide)] at hrel
            rw [if_pos rfl] at hrel
            rw [if_neg (show ¬ ct0 :: ctrest = [[]] by
              intro hh
              injection hh with hh1 hh2
              exact hct0 hh1)] at hrel
            simp only [List.length_nil, List.replicate_zero, List.nil_append] at hrel
            refine Or.inr ⟨ct0 :: ctrest, by simp, ?_, (Option.some.inj hrel).symm, ?_, hbabs⟩
            · intro x hx
              exact hmemT x (hT ▸ hx)
            · rw [hcB]
              rfl
        · -- general case: the base elements must be a prefix of the target's
          rw [if_neg hcB] at hbc
          rw [hbc, htc] at hrel
          rw [dropCommon_cons_eq _ _ rfl, dropCommon_cons_eq _ _ rfl] at hrel
          obtain ⟨n, hn1, hn2, hn3⟩ := dropCommon_spec (absPathComps base) (absPathComps targ)
          by_cases hbrnil : dropCommon (absPathComps base) (absPathComps targ) = []
          · rw [hbrnil] at hrel
            rw [if_neg (show ¬ ([] : List (List Char)).headI = ['.', '.'] by decide)] at hrel
            rw [if_neg (show ¬ ([] : List (List Char)) = [[]] by simp)] at hrel
            have htrne : dropCommon (absPathComps targ) (absPathComps base) ≠ [] := by
              intro hh
              rw [hbrnil] at hn1
              rw [hh] at hn2
              have hble : (absPathComps base).length ≤ n := List.drop_eq_nil_iff.mp hn1.symm
              have htle : (absPathComps targ).length ≤ n := List.drop_eq_nil_iff.mp hn2.symm
              have hbfull : (absPathComps base).take n = absPathComps base :=
                List.take_of_length_le hble
              have htfull : (absPathComps targ).take n = absPathComps targ :=
                List.take_of_length_le htle
              rw [hbfull, htfull] at hn3
              exact hbt (by
                rw [cleanList_abs_render hbabs, cleanList_abs_render htabs, hn3])
            have htrnotempty : dropCommon (absPathComps targ) (absPathComps base) ≠ [[]] := by
              intro hh
              have : ([] : List Char) ∈ absPathComps targ := by
                have : ([] : List Char) ∈ dropCommon (absPathComps targ) (absPathComps base) := by
                  rw [hh]
                  simp
                rw [hn2] at this
                exact List.mem_of_mem_drop this
              exact (hmemT [] this).1 rfl
            rw [if_neg htrnotempty] at hrel
            simp only [List.length_nil, List.replicate_zero, List.nil_append] at hrel
            refine Or.inr ⟨dropCommon (absPathComps targ) (absPathComps base), htrne, ?_,
              (Option.some.inj hrel).symm, ?_, hbabs⟩
            · intro x hx
              rw [hn2] at hx
              exact hmemT x (List.mem_of_mem_drop hx)
            · rw [hbrnil] at hn1
              have hble : (absPathComps base).length ≤ n := List.drop_eq_nil_iff.mp hn1.symm
              have hbfull : (absPathComps base).take n = absPathComps base :=
                List.take_of_length_le hble
              rw [hn2]
              conv_rhs => rw [← List.take_append_drop n (absPathComps targ)]
              rw [← hn3, hbfull]
          · cases hbrv : dropCommon (absPathComps base) (absPathComps targ) with
            | nil => exact absurd hbrv hbrnil
            | cons x xs =>
              have hxmem : x ∈ absPathComps base := by
                have : x ∈ dropCommon (absPathComps base) (absPathComps targ) := by
                  rw [hbrv]
                  exact List.mem_cons_self _ _
                rw [hn1] at this
                exact List.mem_of_mem_drop this
              have hxne : x ≠ [] := (hmemB x hxmem).1
              rw [hbrv] at hrel
              rw [if_neg (show ¬ (x :: xs).headI = ['.', '.'] by
                simpa using (hmemB x hxmem).2.2.1)] at hrel
              rw [if_neg (show ¬ x :: xs = [[]] by
                intro hh
                injection hh with hh1 hh2
                exact hxne hh1)] at hrel
              simp only [List.length_cons] at hrel
              rw [List.replicate_succ] at hrel
              have hcpre : List.isPrefixOf ['.', '.'] c = true := by
                have := Option.some.inj hrel
                rw [← this]
                exact isPrefixOf_dd_joinChar _
              rw [hcpre] at hnp
              exact absurd hnp (by decide)
    · -- the base is not absolute: the rooted-ness guard rejects the pair
      have hb0rel : isAbsList (cleanList base) = false := by
        rw [isAbsList_cleanList]
        revert hbabs
        cases isAbsList base <;> simp
      by_cases hb0dot : cleanList base = ['.']
      · rw [if_pos hb0dot] at hrel
        rw [if_pos (show (isAbsList ([] : List Char) ≠ isAbsList (cleanList targ)) by
          rw [htabs2]
          simp [isAbsList])] at hrel
        exact absurd hrel (by simp)
      · rw [if_neg hb0dot] at hrel
        rw [if_pos (show (isAbsList (cleanList base) ≠ isAbsList (cleanList targ)) by
          rw [htabs2, hb0rel]
          simp)] at hrel
        exact absurd hrel (by simp)

/-- A successful toRootRelativePath result is canonical: "." or a join of
plain elements, and it never climbs. -/
theorem toRootRelativePath_ok_shape {root p c : String}
    (h : toRootRelativePath root p = .ok c) :
    (c.data = ['.'] ∨ ∃ comps, comps ≠ [] ∧
      (∀ x ∈ comps, x ≠ [] ∧ x ≠ ['.'] ∧ x ≠ ['.', '.'] ∧ '/' ∉ x) ∧
      c.data = joinChar '/' comps) ∧
    goHasPrefixStr c ".." = false := by
  unfold toRootRelativePath at h
  dsimp only at h
  by_cases habs : filepathIsAbs (filepathClean
      (match goCutPrefixStr p "file://" with | some after => after | none => p)) = true
  · rw [if_pos habs] at h
    cases hfr : filepathRel root (filepathClean
        (match goCutPrefixStr p "file://" with | some after => after | none => p)) with
    | none =>
      rw [hfr] at h
      simp at h
    | some rel =>
      rw [hfr] at h
      dsimp only at h
      by_cases hp : goHasPrefixStr rel ".." = true
      · rw [hp] at h
        simp at h
      · have hp2 : goHasPrefixStr rel ".." = false := by
          revert hp
          cases goHasPrefixStr rel ".." <;> simp
        rw [hp2] at h
        simp at h
        subst h
        refine ⟨?_, hp2⟩
        unfold filepathRel at hfr
        rw [Option.map_eq_some'] at hfr
        obtain ⟨l, hl1, hl2⟩ := hfr
        have hld : rel.data = l := by
          rw [← hl2]
        have hnpl : List.isPrefixOf ['.', '.'] l = false := by
          have : goHasPrefixStr rel ".." = List.isPrefixOf ['.', '.'] l := by
            unfold goHasPrefixStr
            rw [hld]
          rw [← this, hp2]
        have htabs : isAbsList (filepathClean
            (match goCutPrefixStr p "file://" with | some after => after | none => p)).data =
            true := habs
        rcases relList_abs_analysis htabs hl1 hnpl with ⟨heq, hdot⟩ | ⟨trr, h1, h2, h3, h4, h5⟩
        · left
          rw [hld, hdot]
        · right
          exact ⟨trr, h1, h2, by rw [hld, h3]⟩
  · have habs2 : filepathIsAbs (filepathClean
        (match goCutPrefixStr p "file://" with | some after => after | none => p)) = false := by
      revert habs
      cases filepathIsAbs (filepathClean
        (match goCutPrefixStr p "file://" with | some after => after | none => p)) <;> simp
    rw [habs2] at h
    simp only [Bool.false_eq_true, if_false] at h
    by_cases hp : goHasPrefixStr (filepathClean
        (match goCutPrefixStr p "file://" with | some after => after | none => p)) ".." = true
    · rw [hp] at h
      simp at h
    · have hp2 : goHasPrefixStr (filepathClean
          (match goCutPrefixStr p "file://" with | some after => after | none => p)) ".." =
          false := by
        revert hp
        cases goHasPrefixStr (filepathClean
          (match goCutPrefixStr p "file://" with | some after => after | none => p)) ".." <;> simp
      rw [hp2] at h
      simp at h
      subst h
      refine ⟨?_, hp2⟩
      set raw1 := (match goCutPrefixStr p "file://" with | some after => after | none => p)
        with hraw1
      have hrelb : isAbsList raw1.data = false := by
        rw [← isAbsList_cleanList]
        exact habs2
      by_cases hcc : cleanComps false (splitChar '/' raw1.data) = []
      · left
        show (filepathClean raw1).data = ['.']
        unfold filepathClean
        rw [cleanList_rel_dot hrelb hcc]
      · obtain ⟨j, plain, hplain, hshape⟩ := cleanComps_rel_shape (splitChar '/' raw1.data)
        have hmem := cleanComps_mem false raw1.data
        have hrender : (filepathClean raw1).data =
            joinChar '/' (cleanComps false (splitChar '/' raw1.data)) := by
          unfold filepathClean
          rw [cleanList_rel_render hrelb hcc]
        cases j with
        | succ k =>
          exfalso
          rw [List.replicate_succ] at hshape
          have : List.isPrefixOf ['.', '.'] (filepathClean raw1).data = true := by
            rw [hrender, hshape]
            exact isPrefixOf_dd_joinChar _
          have hcontra : goHasPrefixStr (filepathClean raw1) ".." = true := by
            unfold goHasPrefixStr
            exact this
          rw [hcontra] at hp2
          exact absurd hp2 (by decide)
        | zero =>
          right
          simp only [List.replicate_zero, List.nil_append] at hshape
          refine ⟨plain, ?_, ?_, ?_⟩
          · intro hpl
            rw [hpl] at hshape
            exact hcc hshape
          · intro x hx
            obtain ⟨q1, q2, q3⟩ := hmem x (hshape ▸ hx)
            exact ⟨q1, q2, hplain x hx, q3⟩
          · rw [hrender, hshape]

/-- C7: path canonicalization is idempotent: a path that canonicalizes
successfully canonicalizes to itself on a second pass. -/
theorem toRootRelativePath_idem (root p c : String)
    (h : toRootRelativePath root p = .ok c) :
    toRootRelativePath root c = .ok c := by
  obtain ⟨hshape, hnp⟩ := toRootRelativePath_ok_shape h
  exact toRootRelativePath_canon root c hshape hnp

/-- Witness for idempotence: a concrete URI canonicalizes to src/a.go, which
canonicalizes to itself. -/
theorem toRootRelativePath_idem_witness :
    toRootRelativePath "/w" "file:///w/src/./a.go" = .ok "src/a.go" ∧
    toRootRelativePath "/w" "src/a.go" = .ok "src/a.go" := by
  have h1 : toRootRelativePath "/w" "file:///w/src/./a.go" = .ok "src/a.go" := by rfl
  exact ⟨h1, toRootRelativePath_idem "/w" "file:///w/src/./a.go" "src/a.go" h1⟩

/-- filepath.Rel between two rooted paths never fails. -/
theorem relList_ne_none_of_abs {base targ : List Char}
    (hb : isAbsList base = true) (ht : isAbsList targ = true) :
    relList base targ ≠ none := by
  have hb2 : isAbsList (cleanList base) = true := by
    rw [isAbsList_cleanList]
    exact hb
  have ht2 : isAbsList (cleanList targ) = true := by
    rw [isAbsList_cleanList]
    exact ht
  unfold relList
  dsimp only
  by_cases hbt : cleanList base = cleanList targ
  · rw [if_pos hbt]
    simp
  · rw [if_neg hbt]
    have hb0dot : ¬ cleanList base = ['.'] := by
      intro hh
      rw [hh] at hb2
      exact absurd hb2 (by decide)
    rw [if_neg hb0dot]
    rw [if_neg (show ¬ (isAbsList (cleanList base) ≠ isAbsList (cleanList targ)) by
      rw [hb2, ht2]
      simp)]
    have hb0ne : ¬ cleanList base = [] := by
      intro hh
      rw [hh] at hb2
      exact absurd hb2 (by decide)
    rw [if_neg hb0ne]
    have hbcmem : ∀ x ∈ splitChar '/' (cleanList base), x ≠ ['.', '.'] := by
      rw [splitChar_cleanList_abs hb]
      by_cases hcB : absPathComps base = []
      · rw [if_pos hcB]
        intro x hx
        rcases List.mem_cons.mp hx with h1 | h1
        · rw [h1]
          simp
        · simp at h1
          rw [h1]
          simp
      · rw [if_neg hcB]
        intro x hx
        rcases List.mem_cons.mp hx with h1 | h1
        · rw [h1]
          simp
        · exact (absPathComps_mem base x h1).2.2.1
    obtain ⟨n, hn1, hn2, hn3⟩ :=
      dropCommon_spec (splitChar '/' (cleanList base)) (splitChar '/' (cleanList targ))
    have hhead : ¬ (dropCommon (splitChar '/' (cleanList base))
        (splitChar '/' (cleanList targ))).headI = ['.', '.'] := by
      cases hbr : dropCommon (splitChar '/' (cleanList base)) (splitChar '/' (cleanList targ)) with
      | nil => decide
      | cons x xs =>
        have : x ∈ splitChar '/' (cleanList base) := by
          have : x ∈ dropCommon (splitChar '/' (cleanList base))
              (splitChar '/' (cleanList targ)) := by
            rw [hbr]
            exact List.mem_cons_self _ _
          rw [hn1] at this
          exact List.mem_of_mem_drop this
        simpa using hbcmem x this
    rw [if_neg hhead]
    simp

/-- C1: every raw input path, whether a file URI, an absolute path or a
relative path, whose resolution lies outside the workspace root is rejected
by toRootRelativePath with the out-of-root error. -/
theorem outOfRootAlwaysRejected (root raw : String)
    (habs : isAbsList root.data = true)
    (hout : outsideRoot root raw) :
    toRootRelativePath root raw = .error .outsideRoot := by
  unfold outsideRoot resolvedComps at hout
  dsimp only at hout
  unfold toRootRelativePath
  dsimp only
  by_cases hca : isAbsList (cleanList
      (match goCutPrefixStr raw "file://" with | some after => after | none => raw).data) = true
  · -- the raw path resolves absolutely
    rw [if_pos hca] at hout
    have hca2 : filepathIsAbs (filepathClean
        (match goCutPrefixStr raw "file://" with | some after => after | none => raw)) =
        true := hca
    rw [if_pos hca2]
    have hrawabs : isAbsList
        (match goCutPrefixStr raw "file://" with | some after => after | none => raw).data =
        true := by
      rw [← isAbsList_cleanList]
      exact hca
    cases hfr : filepathRel root (filepathClean
        (match goCutPrefixStr raw "file://" with | some after => after | none => raw)) with
    | none =>
      exfalso
      unfold filepathRel at hfr
      rw [Option.map_eq_none'] at hfr
      exact relList_ne_none_of_abs habs (by
        show isAbsList (filepathClean
          (match goCutPrefixStr raw "file://" with | some after => after | none => raw)).data =
          true
        exact hca2) hfr
    | some rel =>
      dsimp only
      by_cases hp : goHasPrefixStr rel ".." = true
      · rw [hp]
        simp
      · exfalso
        have hp2 : goHasPrefixStr rel ".." = false := by
          revert hp
          cases goHasPrefixStr rel ".." <;> simp
        unfold filepathRel at hfr
        rw [Option.map_eq_some'] at hfr
        obtain ⟨l, hl1, hl2⟩ := hfr
        have hld : rel.data = l := by
          rw [← hl2]
        have hnpl : List.isPrefixOf ['.', '.'] l = false := by
          have : goHasPrefixStr rel ".." = List.isPrefixOf ['.', '.'] l := by
            unfold goHasPrefixStr
            rw [hld]
          rw [← this, hp2]
        have habsC : absPathComps (filepathClean
            (match goCutPrefixStr raw "file://" with | some after => after | none => raw)).data =
            absPathComps
              (match goCutPrefixStr raw "file://" with | some after => after | none => raw).data :=
          absPathComps_cleanList hrawabs
        rcases relList_abs_analysis (show isAbsList (filepathClean
            (match goCutPrefixStr raw "file://" with
             | some after => after | none => raw)).data = true from hca2) hl1 hnpl with
          ⟨heq, _⟩ | ⟨trr, _, _, _, h4, _⟩
        · refine hout ?_
          have hAB : absPathComps root.data = absPathComps
              (match goCutPrefixStr raw "file://" with
               | some after => after | none => raw).data := by
            rw [← absPathComps_cleanList habs, heq,
              absPathComps_cleanList (show isAbsList (filepathClean
                (match goCutPrefixStr raw "file://" with
                 | some after => after | none => raw)).data = true from hca2), habsC]
          rw [hAB]
        · refine hout ?_
          rw [← habsC, ← h4, ← absPathComps_cleanList habs]
          exact List.prefix_append _ _
  · -- the raw path is relative and resolves against the root
    have hca0 : isAbsList (cleanList
        (match goCutPrefixStr raw "file://" with | some after => after | none => raw).data) =
        false := by
      revert hca
      cases isAbsList (cleanList
        (match goCutPrefixStr raw "file://" with | some after => after | none => raw).data) <;>
        simp
    rw [hca0] at hout
    simp only [Bool.false_eq_true, if_false] at hout
    have hca2 : filepathIsAbs (filepathClean
        (match goCutPrefixStr raw "file://" with | some after => after | none => raw)) =
        false := hca0
    rw [hca2]
    simp only [Bool.false_eq_true, if_false]
    by_cases hp : goHasPrefixStr (filepathClean
        (match goCutPrefixStr raw "file://" with | some after => after | none => raw)) ".." =
        true
    · rw [hp]
      simp
    · exfalso
      have hp2 : goHasPrefixStr (filepathClean
          (match goCutPrefixStr raw "file://" with | some after => after | none => raw)) ".." =
          false := by
        revert hp
        cases goHasPrefixStr (filepathClean
          (match goCutPrefixStr raw "file://" with
           | some after => after | none => raw)) ".." <;> simp
      apply hout
      set raw1 := (match goCutPrefixStr raw "file://" with | some after => after | none => raw)
        with hraw1
      have hsplitapp : splitChar '/' (root.data ++ '/' :: raw1.data) =
          splitChar '/' root.data ++ splitChar '/' raw1.data := splitChar_append _ _ _
      have hrootstack : cleanCore true [] (splitChar '/' root.data) =
          (absPathComps root.data).reverse := by
        unfold absPathComps cleanComps
        rw [List.reverse_reverse]
      have hsnd : ∀ x ∈ (absPathComps root.data).reverse, x ≠ ['.', '.'] := by
        intro x hx
        exact (absPathComps_mem root.data x (List.mem_reverse.mp hx)).2.2.1
      obtain ⟨pr2, j2, hnd2, he1, he2⟩ :=
        cleanCore_sim (splitChar '/' raw1.data) [] 0 (absPathComps root.data).reverse
          (by simp) hsnd
      simp only [List.nil_append, List.drop_zero, List.replicate_zero] at he1 he2
      have hrelb : isAbsList raw1.data = false := by
        rw [← isAbsList_cleanList]
        exact hca0
      cases hj2 : j2 with
      | succ k =>
        exfalso
        rw [hj2] at he1
        have hshape : cleanComps false (splitChar '/' raw1.data) =
            List.replicate (k + 1) ['.', '.'] ++ pr2.reverse := by
          unfold cleanComps
          rw [he1, List.reverse_append, List.reverse_replicate]
        have hne : cleanComps false (splitChar '/' raw1.data) ≠ [] := by
          rw [hshape]
          simp [List.replicate_succ]
        have hpre : List.isPrefixOf ['.', '.']
            (filepathClean raw1).data = true := by
          show List.isPrefixOf ['.', '.'] (cleanList raw1.data) = true
          rw [cleanList_rel_render hrelb hne, hshape, List.replicate_succ]
          exact isPrefixOf_dd_joinChar _
        have : goHasPrefixStr (filepathClean raw1) ".." = true := by
          unfold goHasPrefixStr
          exact hpre
        rw [this] at hp2
        exact absurd hp2 (by decide)
      | zero =>
        rw [hj2] at he2
        simp only [List.drop_zero] at he2
        show absPathComps root.data <+: absPathComps (root.data ++ '/' :: raw1.data)
        unfold absPathComps cleanComps
        rw [hsplitapp, cleanCore_append, hrootstack, he2, List.reverse_append,
          List.reverse_reverse]
        exact List.prefix_append _ _

/-- Witness for the containment theorem: root/../outside.go, as a plain path
and as a URI arrival of an outside path, is rejected with the out-of-root
error. -/
theorem outOfRootAlwaysRejected_witness :
    outsideRoot "/w" "/w/../outside.go" ∧
    toRootRelativePath "/w" "/w/../outside.go" = .error .outsideRoot ∧
    outsideRoot "/w" "file:///etc/passwd" ∧
    toRootRelativePath "/w" "file:///etc/passwd" = .error .outsideRoot ∧
    outsideRoot "/w" "../outside.go" ∧
    toRootRelativePath "/w" "../outside.go" = .error .outsideRoot := by
  refine ⟨by decide, ?_, by decide, ?_, by decide, ?_⟩
  · exact outOfRootAlwaysRejected "/w" "/w/../outside.go" (by decide) (by decide)
  · exact outOfRootAlwaysRejected "/w" "file:///etc/passwd" (by decide) (by decide)
  · exact outOfRootAlwaysRejected "/w" "../outside.go" (by decide) (by decide)

/-- A rooted character list starts with the separator. -/
theorem isAbsList_true_head {l : List Char} (h : isAbsList l = true) :
    ∃ rest, l = '/' :: rest := by
  cases l with
  | nil => exact absurd h (by decide)
  | cons c0 rest =>
    unfold isAbsList at h
    split at h
    · rename_i heq
      refine ⟨rest, ?_⟩
      injection heq with h1 h2
      rw [h1]
    · exact absurd h (by decide)

/-- Appending plain elements beyond a rooted prefix cleans to root elements
followed by those elements. -/
theorem cleanList_root_append {rootd bs : List Char} {trr : List (List Char)}
    (habs : isAbsList rootd = true)
    (hsplit : splitChar '/' bs = trr)
    (hnorm : ∀ x ∈ trr, x ≠ [] ∧ x ≠ ['.'] ∧ x ≠ ['.', '.']) :
    cleanList (rootd ++ '/' :: bs) = '/' :: joinChar '/' (absPathComps rootd ++ trr) := by
  obtain ⟨r0, hr0⟩ := isAbsList_true_head habs
  have habs2 : isAbsList (rootd ++ '/' :: bs) = true := by
    rw [hr0]
    rfl
  rw [cleanList_abs_render habs2]
  have hcomps : absPathComps (rootd ++ '/' :: bs) = absPathComps rootd ++ trr := by
    unfold absPathComps cleanComps
    rw [splitChar_append, hsplit, cleanCore_append]
    rw [cleanCore_normal true trr _ hnorm]
    simp [List.reverse_append, List.reverse_reverse]
  rw [hcomps]

/-- Joining a lone dot to a rooted path cleans to the cleaned root. -/
theorem cleanList_root_append_dot {rootd : List Char} (habs : isAbsList rootd = true) :
    cleanList (rootd ++ '/' :: ['.']) = cleanList rootd := by
  obtain ⟨r0, hr0⟩ := isAbsList_true_head habs
  have habs2 : isAbsList (rootd ++ '/' :: ['.']) = true := by
    rw [hr0]
    rfl
  rw [cleanList_abs_render habs2, cleanList_abs_render habs]
  have hsd : splitChar '/' ['.'] = [['.']] := splitChar_no_sep (by decide)
  have hcomps : absPathComps (rootd ++ '/' :: ['.']) = absPathComps rootd := by
    unfold absPathComps cleanComps
    rw [splitChar_append, hsd, cleanCore_append]
    rw [show ∀ s, cleanCore true s [['.']] = s from by
      intro s
      unfold cleanCore cleanStep
      simp]
  rw [hcomps]

/-- C8 counterexample: the raw claim fails because the inverse produces a
file URI, not the original absolute path. -/
theorem roundTripAddsScheme_counterexample :
    toRootRelativePath "/w" "/w/a.go" = .ok "a.go" ∧
    relativePathToAbsoluteURI "/w" "a.go" = .ok "file:///w/a.go" ∧
    ("file:///w/a.go" : String) ≠ "/w/a.go" := by
  exact ⟨by rfl, by rfl, by decide⟩

/-- C8 amended: for a cleaned absolute path inside the root, the inverse of
canonicalization reconstructs the path as a file URI ("file://" followed by
the original absolute path), not the bare path. -/
theorem roundTripYieldsFileURI (root p c : String)
    (hpabs0 : filepathIsAbs p = true)
    (hpclean0 : filepathClean p = p)
    (h : toRootRelativePath root p = .ok c) :
    relativePathToAbsoluteURI root c = .ok ("file://" ++ p) := by
  have hpabs : isAbsList p.data = true := hpabs0
  have hpclean : cleanList p.data = p.data := congrArg String.data hpclean0
  have hcp : filepathClean p = p := hpclean0
  have hcut : goCutPrefixStr p "file://" = none := by
    obtain ⟨rest, hrest⟩ := isAbsList_true_head hpabs
    unfold goCutPrefixStr
    rw [if_neg]
    intro hpre
    obtain ⟨t, ht⟩ := List.isPrefixOf_iff_prefix.mp hpre
    have hd : ("file://" : String).data = ['f', 'i', 'l', 'e', ':', '/', '/'] := rfl
    rw [hd, hrest] at ht
    injection ht with h1 h2
    exact absurd h1 (by decide)
  unfold toRootRelativePath at h
  dsimp only at h
  rw [hcut] at h
  dsimp only at h
  rw [hcp] at h
  have habs2 : filepathIsAbs p = true := hpabs
  rw [if_pos habs2] at h
  cases hrel : filepathRel root p with
  | none =>
    rw [hrel] at h
    exact absurd h (by simp)
  | some rel =>
    rw [hrel] at h
    dsimp only at h
    by_cases hp2 : goHasPrefixStr rel ".." = true
    · rw [if_pos hp2] at h
      exact absurd h (by simp)
    · rw [if_neg hp2] at h
      have hrc : rel = c := by injection h
      subst hrc
      have hp2f : goHasPrefixStr rel ".." = false := by
        revert hp2
        cases goHasPrefixStr rel ".." <;> simp
      have hnp : List.isPrefixOf ['.', '.'] rel.data = false := hp2f
      have hrl : relList root.data p.data = some rel.data := by
        unfold filepathRel at hrel
        cases hr2 : relList root.data p.data with
        | none =>
          rw [hr2] at hrel
          exact absurd hrel (by simp)
        | some l =>
          rw [hr2] at hrel
          simp at hrel
          rw [← hrel]
      rcases relList_abs_analysis hpabs hrl hnp with ⟨heq, hcd⟩ |
        ⟨trr, htne, htmem, hcjoin, hsum, hrabs⟩
      · have hc : rel = ⟨['.']⟩ := by
          rw [← hcd]
        rw [hc]
        have hrabs : isAbsList root.data = true := by
          rw [← isAbsList_cleanList, heq, isAbsList_cleanList]
          exact hpabs
        have hrne : root.data ≠ [] := by
          intro hh
          rw [hh] at hrabs
          exact absurd hrabs (by decide)
        unfold relativePathToAbsoluteURI
        rw [if_neg (show ¬ goHasPrefixStr ⟨['.']⟩ ".." = true from by decide)]
        have hjoin : filepathJoin root ⟨['.']⟩ = p := by
          unfold filepathJoin
          rw [if_neg hrne, if_neg (show (⟨['.']⟩ : String).data ≠ [] from by decide)]
          show (⟨cleanList (root.data ++ '/' :: ['.'])⟩ : String) = p
          rw [cleanList_root_append_dot hrabs, heq, hpclean]
        rw [hjoin, hcp]
      · have hrne : root.data ≠ [] := by
          intro hh
          rw [hh] at hrabs
          exact absurd hrabs (by decide)
        have hsplit_trr : splitChar '/' (joinChar '/' trr) = trr :=
          splitChar_joinChar '/' trr htne (fun x hx => (htmem x hx).2.2.2)
        have hcne : rel.data ≠ [] := by
          rw [hcjoin]
          cases trr with
          | nil => exact absurd rfl htne
          | cons t0 ts =>
            obtain ⟨u, hu⟩ := prefix_joinChar_cons '/' t0 ts
            intro hh
            rw [hh] at hu
            have ht0 : t0 = [] := (List.append_eq_nil.mp hu).1
            exact (htmem t0 (by simp)).1 ht0
        have hclJoin : cleanList (root.data ++ '/' :: rel.data) =
            '/' :: joinChar '/' (absPathComps root.data ++ trr) :=
          cleanList_root_append hrabs (by rw [hcjoin]; exact hsplit_trr)
            (fun x hx => ⟨(htmem x hx).1, (htmem x hx).2.1, (htmem x hx).2.2.1⟩)
        rw [hsum] at hclJoin
        have hclJoin2 : cleanList (root.data ++ '/' :: rel.data) = p.data := by
          rw [hclJoin, ← cleanList_abs_render hpabs, hpclean]
        unfold relativePathToAbsoluteURI
        rw [if_neg (show ¬ goHasPrefixStr rel ".." = true from by rw [hp2f]; simp)]
        have hjoin : filepathJoin root rel = p := by
          unfold filepathJoin
          rw [if_neg hrne, if_neg hcne]
          show (⟨cleanList (root.data ++ '/' :: rel.data)⟩ : String) = p
          rw [hclJoin2]
        rw [hjoin, hcp]

/-- Witness for the amended round trip: /w/a.go under root /w canonicalizes
to a.go, and the inverse yields file:///w/a.go. -/
theorem roundTripYieldsFileURI_witness :
    filepathIsAbs "/w/a.go" = true ∧
    filepathClean "/w/a.go" = "/w/a.go" ∧
    toRootRelativePath "/w" "/w/a.go" = .ok "a.go" ∧
    relativePathToAbsoluteURI "/w" "a.go" = .ok ("file://" ++ "/w/a.go") := by
  refine ⟨by decide, by decide, by rfl, ?_⟩
  exact roundTripYieldsFileURI "/w" "/w/a.go" "a.go" (by decide) (by decide) (by rfl)
